import Mathlib

/-! # landing-folder-sizer: recursive directory sizes

A verification development for `main.go`: the tree model (`WalkFile`, `WalkDir`), the
renderer `Pretty`, the single-goroutine walker `walkSimple` and the concurrent walker `walk`.

* Go's `int64` is `Int64`: an integer in `[-2^63, 2^63)` whose addition wraps modulo `2^64`.
* The file system is a value of type `Dir`: what `os.Lstat` and `ioutil.ReadDir` answer for a
  path and, for every listed sub-directory, for the joined path. It does not change while a
  walk runs.
* `walkSimple` is a function on `Dir`.
* `walk` is a goroutine. One call of it is a `Goroutine`: its local variables, a program
  counter, the counter of its `sync.WaitGroup`, whether each of its two channels is closed,
  the place of the anonymous goroutine that closes them, and the calls it has spawned.
  `walkStep` executes one statement of one goroutine of such a tree; its argument of type
  `Act` says which one, so a list of acts is a schedule, and a property of `walk` under every
  scheduling is a property of `sysRun` for every list of acts. The channels are unbuffered: a
  send and the receive that takes it are one step (`Act.recv`, `SysAct.recv`).
* Each call carries a history variable, `sent`, the values it has handed over; the
  invariant `Inv` of the tree of calls relates it to what the caller of the call has
  gathered.
-/

namespace FolderSizer

/-! ## int64 -/

/-- Two's-complement wrap of an integer into the range of `int64`. -/
def wrap64 (x : Int) : Int := (x + 2 ^ 63) % 2 ^ 64 - 2 ^ 63

/-- Go's `int64`. -/
structure Int64 where
  val : Int
  lo : -(2 ^ 63) ≤ val
  hi : val < 2 ^ 63

namespace Int64

instance : DecidableEq Int64 := fun a b =>
  if h : a.val = b.val then isTrue (by cases a; cases b; cases h; rfl)
  else isFalse (fun e => h (by rw [e]))

/-- Conversion of an integer to `int64`. -/
def ofInt (x : Int) : Int64 :=
  ⟨wrap64 x, by unfold wrap64; omega, by unfold wrap64; omega⟩

/-- Go's `+` on `int64`: the sum wraps around. -/
def add (a b : Int64) : Int64 := ofInt (a.val + b.val)

instance : Add Int64 := ⟨add⟩

instance : Zero Int64 := ⟨ofInt 0⟩

/-- Wrapping addition makes `int64` a commutative monoid, so sums of lists of sizes do not
depend on the order of the additions. -/
instance : AddCommMonoid Int64 where
  add_assoc a b c := by
    cases a with | mk a _ _ => cases b with | mk b _ _ => cases c with | mk c _ _ =>
    show Int64.mk _ _ _ = Int64.mk _ _ _
    congr 1
    show wrap64 (wrap64 (a + b) + c) = wrap64 (a + wrap64 (b + c))
    simp only [wrap64]; omega
  zero_add a := by
    cases a with | mk a _ _ =>
    show Int64.mk _ _ _ = Int64.mk _ _ _
    congr 1
    show wrap64 (wrap64 0 + a) = a
    simp only [wrap64]; omega
  add_zero a := by
    cases a with | mk a _ _ =>
    show Int64.mk _ _ _ = Int64.mk _ _ _
    congr 1
    show wrap64 (a + wrap64 0) = a
    simp only [wrap64]; omega
  add_comm a b := by
    cases a with | mk a _ _ => cases b with | mk b _ _ =>
    show Int64.mk _ _ _ = Int64.mk _ _ _
    congr 1
    show wrap64 (a + b) = wrap64 (b + a)
    rw [Int.add_comm]
  nsmul := nsmulRec

end Int64

/-! ## The tree model (`main.go`, lines 17-29) -/

/-- The type `WalkFile`, which represents the file node in the tree. -/
structure WalkFile where
  Name : String
  Size : Int64
deriving DecidableEq

/-- The type `WalkDir`, which represents the dir node in the tree. -/
inductive WalkDir where
  | mk (Name : String) (Size : Int64) (Dirs : List WalkDir) (Files : List WalkFile)

namespace WalkDir

def Name : WalkDir → String
  | mk n _ _ _ => n

def Size : WalkDir → Int64
  | mk _ s _ _ => s

def Dirs : WalkDir → List WalkDir
  | mk _ _ ds _ => ds

def Files : WalkDir → List WalkFile
  | mk _ _ _ fs => fs

end WalkDir

mutual
/-- Equality of `WalkDir`s is decidable. -/
def WalkDir.decEq : (a b : WalkDir) → Decidable (a = b)
  | .mk n s ds fs, .mk n' s' ds' fs' =>
    if h1 : n = n' then
      if h2 : s = s' then
        if h3 : fs = fs' then
          match WalkDir.decEqList ds ds' with
          | isTrue h4 => isTrue (by rw [h1, h2, h3, h4])
          | isFalse h4 => isFalse (fun h => h4 (by cases h; rfl))
        else isFalse (fun h => h3 (by cases h; rfl))
      else isFalse (fun h => h2 (by cases h; rfl))
    else isFalse (fun h => h1 (by cases h; rfl))
/-- Equality of lists of `WalkDir`s is decidable. -/
def WalkDir.decEqList : (a b : List WalkDir) → Decidable (a = b)
  | [], [] => isTrue rfl
  | [], _ :: _ => isFalse (fun h => by cases h)
  | _ :: _, [] => isFalse (fun h => by cases h)
  | a :: as, b :: bs =>
    match WalkDir.decEq a b with
    | isTrue h1 =>
      match WalkDir.decEqList as bs with
      | isTrue h2 => isTrue (by rw [h1, h2])
      | isFalse h2 => isFalse (fun h => h2 (by cases h; rfl))
    | isFalse h1 => isFalse (fun h => h1 (by cases h; rfl))
end

instance : DecidableEq WalkDir := WalkDir.decEq

/-! ## `Pretty` (`main.go`, lines 13, 31-56) -/

def indentWidth : Nat := 4

/-- The method `d.write(buf, format, a...)`: `fmt.Fprintf` appends the formatted text to the
builder. -/
def write (buf : String) (text : String) : String := buf ++ text

/-- The format `"|- %s (%d)\n"` applied to a name and a size; `%d` prints an `int64` in
decimal, with a minus sign when it is negative. -/
def entryFormat (name : String) (size : Int64) : String :=
  "|- " ++ name ++ " (" ++ toString size.val ++ ")\n"

/-- The loop `for n := 0; n < indent; n++ { d.write(buf, " ") }`. -/
def writeIndent : Nat → String → String
  | 0, buf => buf
  | n + 1, buf => writeIndent n (write buf " ")

/-- The loop `for _, f := range d.Files` of `pretty`. -/
def prettyFiles : List WalkFile → Nat → String → String
  | [], _, buf => buf
  | f :: fs, indent, buf =>
      prettyFiles fs indent (write (writeIndent (indent + indentWidth) buf) (entryFormat f.Name f.Size))

mutual
/-- The method `func (d WalkDir) pretty(indent int, buf *strings.Builder)`; the builder is
passed through. The indent is a natural number: it grows by four per level of the tree and
does not come near the end of `int`. -/
def WalkDir.pretty : WalkDir → Nat → String → String
  | .mk name size dirs files, indent, buf =>
      prettyDirs dirs indent
        (prettyFiles files indent (write (writeIndent indent buf) (entryFormat name size)))
/-- The loop `for _, dir := range d.Dirs { dir.pretty(indent+indentWidth, buf) }`. -/
def prettyDirs : List WalkDir → Nat → String → String
  | [], _, buf => buf
  | d :: ds, indent, buf => prettyDirs ds indent (d.pretty (indent + indentWidth) buf)
end

/-- The method `func (d WalkDir) Pretty() string`. -/
def WalkDir.Pretty (d : WalkDir) : String := d.pretty 0 ""

/-- One line of the rendering as the specification words it: `4*k` spaces, then
`|- <Name> (<Size>)` and a newline. -/
def specLine (k : Nat) (name : String) (size : Int64) : String :=
  String.mk (List.replicate (4 * k) ' ') ++ ("|- " ++ name ++ " (" ++ toString size.val ++ ")\n")

/-- The lines of the files of a directory at depth `k`, in order, each at depth `k + 1`. -/
def specFiles (k : Nat) : List WalkFile → String
  | [] => ""
  | f :: fs => specLine (k + 1) f.Name f.Size ++ specFiles k fs

mutual
/-- The rendering as the specification words it: the line of the directory at depth `k`, then
one line per file at depth `k + 1`, then the renderings of the sub-directories at depth
`k + 1`. -/
def specRender : Nat → WalkDir → String
  | k, .mk name size dirs files =>
      specLine k name size ++ (specFiles k files ++ specRenderAll (k + 1) dirs)
/-- The renderings of a list of directories at depth `k`, in order. -/
def specRenderAll : Nat → List WalkDir → String
  | _, [] => ""
  | k, d :: ds => specRender k d ++ specRenderAll k ds
end

/-- The tree of `TestWalkDir_PrettyPrint`. -/
def testTree : WalkDir :=
  .mk "aaa" 0
    [ .mk "ddd" 0 [] [⟨"fff", 0⟩, ⟨"ggg", 0⟩],
      .mk "eee" 0 [.mk "jjj" 0 [] []] [⟨"hhh", 0⟩, ⟨"iii", 0⟩] ]
    [⟨"bbb", 0⟩, ⟨"ccc", 0⟩]

/-! ## The file system -/

/-- A Go `error` value. -/
abbrev Error := String

/-- The part of `os.FileInfo` the program reads: `Name()` and `Size()`. `IsDir()` is the
constructor of `Entry`. -/
structure FileInfo where
  name : String
  size : Int64

mutual
/-- What the file system answers for one path: the result of `os.Lstat(path)`, the error of
`ioutil.ReadDir(path)` if it fails, and the entries it lists otherwise. -/
inductive Dir where
  | mk (lstat : Except Error FileInfo) (readErr : Option Error) (entries : List Entry)
/-- One `os.FileInfo` of a listing: `file` when `IsDir()` is false, `dir` when it is true,
together with what the file system answers for `filepath.Join(path, info.Name())`. -/
inductive Entry where
  | file (info : FileInfo)
  | dir (info : FileInfo) (target : Dir)
end

namespace Dir

def lstat : Dir → Except Error FileInfo
  | mk l _ _ => l

def readErr : Dir → Option Error
  | mk _ r _ => r

def entries : Dir → List Entry
  | mk _ _ es => es

end Dir

/-! ## `walkSimple` (`main.go`, lines 58-94) -/

mutual
/-- The function `func walkSimple(path string) (WalkDir, error)`. -/
def walkSimple : Dir → Except Error WalkDir
  | .mk lstat readErr entries =>
    match lstat with
    | .error err => .error err
    | .ok info =>
      match readErr with
      | some err => .error err
      | none => walkSimpleRange info entries info.size [] []
/-- The loop `for _, info := range infos` of `walkSimple`, with the variables `size`, `dirs`
and `files`, followed by the final `return`. `top` is the outer `info`. -/
def walkSimpleRange (top : FileInfo) : List Entry → Int64 → List WalkDir → List WalkFile →
    Except Error WalkDir
  | [], size, dirs, files => .ok (.mk top.name size dirs files)
  | .file info :: rest, size, dirs, files =>
      walkSimpleRange top rest (size + info.size) dirs (files ++ [⟨info.name, info.size⟩])
  | .dir _ target :: rest, size, dirs, files =>
      match walkSimple target with
      | .error err => .error err
      | .ok dir => walkSimpleRange top rest (size + dir.Size) (dirs ++ [dir]) files
end

/-! ## `walk` (`main.go`, lines 96-172) -/

/-- A value travelling on one of the two channels of a call: a `WalkDir` on `dirCh` or an
`error` on `errCh`. -/
inductive Msg where
  | dir (d : WalkDir)
  | err (e : Error)
deriving DecidableEq

/-- Where a call of `walk` stands. -/
inductive Pc where
  /-- Line 105, before `os.Lstat(path)`. -/
  | lstat
  /-- Line 112, before `ioutil.ReadDir(path)`. -/
  | readDir
  /-- Lines 107 and 114, blocked in `errCh <- err` with the error of the call's own `Lstat`
  or `ReadDir`. -/
  | ownErr (e : Error)
  /-- Line 126, the loop over `infos` with the entries still to visit. -/
  | range (rest : List Entry)
  /-- Line 149, blocked in `select`. -/
  | select
  /-- Line 161, blocked in `errCh <- err` with an error received from a child. -/
  | forward (e : Error)
  /-- Line 166, blocked in `dirCh <- WalkDir{...}`. -/
  | result
  /-- The function has returned; the deferred `wg.Done()` of line 102 is next. -/
  | deferred
  /-- The goroutine has ended. -/
  | returned

/-- Where the anonymous goroutine of lines 139-145 stands. -/
inductive Closer where
  /-- The `go` statement of line 139 has not run. -/
  | notStarted
  /-- Line 142, blocked in `subWg.Wait()`. -/
  | wait
  /-- Line 143, before `close(subDirCh)`. -/
  | closeDir
  /-- Line 144, before `close(subErrCh)`. -/
  | closeErr
  /-- The goroutine has ended. -/
  | finished

/-- The variables of one call of `walk`. -/
structure Frame where
  /-- The argument `path`, as what the file system holds there. -/
  path : Dir
  pc : Pc
  /-- The result of `os.Lstat(path)`. -/
  info : FileInfo
  size : Int64
  dirs : List WalkDir
  files : List WalkFile
  /-- The counter of `subWg`. -/
  subWg : Nat
  /-- Whether `subDirCh` has been closed. -/
  subDirClosed : Bool
  /-- Whether `subErrCh` has been closed. -/
  subErrClosed : Bool
  closer : Closer
  /-- History variable: the values this call has handed over on `dirCh` and `errCh`, in order.
  No step reads it. -/
  sent : List Msg

/-- A call of `walk` with the calls it has spawned, in spawning order. -/
inductive Goroutine where
  | mk (frame : Frame) (kids : List Goroutine)

namespace Goroutine

def frame : Goroutine → Frame
  | mk f _ => f

def kids : Goroutine → List Goroutine
  | mk _ ks => ks

end Goroutine

/-- The goroutine created by `go walk(path, wg, dirCh, errCh)`, before its first statement. -/
def spawn (path : Dir) : Goroutine :=
  .mk { path := path, pc := .lstat, info := ⟨"", 0⟩, size := 0, dirs := [], files := [],
        subWg := 0, subDirClosed := false, subErrClosed := false, closer := .notStarted,
        sent := [] } []

/-- The value a call is blocked sending to its caller, if it is blocked in a send. -/
def offer (g : Goroutine) : Option Msg :=
  match g.frame.pc with
  | .ownErr e => some (.err e)
  | .forward e => some (.err e)
  | .result => some (.dir (.mk g.frame.info.name g.frame.size g.frame.dirs g.frame.files))
  | _ => none

/-- The call after its caller has received the value it was sending: after the sends of
lines 107 and 114 the function returns, after line 161 the loop goes on, after line 166 the
function ends. -/
def delivered (g : Goroutine) : Goroutine :=
  match g.frame.pc, offer g with
  | .ownErr _, some m => .mk { g.frame with pc := .deferred, sent := g.frame.sent ++ [m] } g.kids
  | .forward _, some m => .mk { g.frame with pc := .select, sent := g.frame.sent ++ [m] } g.kids
  | .result, some m => .mk { g.frame with pc := .deferred, sent := g.frame.sent ++ [m] } g.kids
  | _, _ => g

/-- One step of a schedule, addressed to a call of `walk`. -/
inductive Act where
  /-- The call executes its next statement, one that needs no partner. -/
  | run
  /-- The `select` of the call receives what its `i`-th child is sending. -/
  | recv (i : Nat)
  /-- The `select` of the call takes the case of `subDirCh` with `ok == false`. -/
  | dirClosed
  /-- The `select` of the call takes the case of `subErrCh` with `ok == false`. -/
  | errClosed
  /-- The anonymous goroutine of the call executes its next statement. -/
  | closer
  /-- A step inside the `i`-th child of the call. -/
  | kid (i : Nat) (a : Act)

/-- The statements of `walk` that need no partner, one step each: `os.Lstat` (line 105),
`ioutil.ReadDir` with the declarations of lines 120-125 (line 112), one turn of the loop of
line 126 (for a directory, `subWg.Add(1)` and the `go` statement), the end of that loop with
the `go` statement of line 139, and the deferred `wg.Done()`. The boolean of the result tells
that the step was the deferred `wg.Done()`, which decrements the caller's counter. -/
def runStep (f : Frame) (kids : List Goroutine) : Option (Goroutine × Bool) :=
  match f.pc with
  | .lstat =>
      match f.path.lstat with
      | .error err => some (.mk { f with pc := .ownErr err } kids, false)
      | .ok info => some (.mk { f with pc := .readDir, info := info } kids, false)
  | .readDir =>
      match f.path.readErr with
      | some err => some (.mk { f with pc := .ownErr err } kids, false)
      | none => some (.mk { f with pc := .range f.path.entries, size := f.info.size } kids, false)
  | .range (.file info :: rest) =>
      some (.mk { f with pc := .range rest, size := f.size + info.size,
                         files := f.files ++ [⟨info.name, info.size⟩] } kids, false)
  | .range (.dir _ target :: rest) =>
      some (.mk { f with pc := .range rest, subWg := f.subWg + 1 } (kids ++ [spawn target]), false)
  | .range [] => some (.mk { f with pc := .select, closer := .wait } kids, false)
  | .deferred => some (.mk { f with pc := .returned } kids, true)
  | _ => none

/-- The statements of the anonymous goroutine of lines 139-145: `subWg.Wait()` returns when the
counter is zero, then `close(subDirCh)`, then `close(subErrCh)`. -/
def closerStep (f : Frame) : Option Frame :=
  match f.closer with
  | .wait => if f.subWg = 0 then some { f with closer := .closeDir } else none
  | .closeDir => some { f with closer := .closeErr, subDirClosed := true }
  | .closeErr => some { f with closer := .finished, subErrClosed := true }
  | _ => none

/-- The `select` of lines 149-162 receiving the value `m`. A send on a channel that has been
closed is no step. -/
def recvStep (f : Frame) (m : Msg) : Option Frame :=
  match f.pc, m with
  | .select, .dir dir =>
      if f.subDirClosed then none
      else some { f with size := f.size + dir.Size, dirs := f.dirs ++ [dir] }
  | .select, .err err =>
      if f.subErrClosed then none else some { f with pc := .forward err }
  | _, _ => none

/-- One step of the goroutines of a call of `walk`. The boolean of the result tells that the
call itself executed its deferred `wg.Done()`. A receive is one step of two goroutines: the
child that was sending goes on (`delivered`) and the `select` takes the value (`recvStep`).
A `Done` on a counter that is zero is no step. -/
def walkStep : Act → Goroutine → Option (Goroutine × Bool)
  | .run, .mk f kids => runStep f kids
  | .recv i, .mk f kids =>
      match kids[i]? with
      | none => none
      | some k =>
        match offer k with
        | none => none
        | some m =>
          match recvStep f m with
          | none => none
          | some f' => some (.mk f' (kids.set i (delivered k)), false)
  | .dirClosed, .mk f kids =>
      match f.pc with
      | .select => if f.subDirClosed then some (.mk { f with pc := .result } kids, false) else none
      | _ => none
  | .errClosed, .mk f kids =>
      match f.pc with
      | .select => if f.subErrClosed then some (.mk { f with pc := .result } kids, false) else none
      | _ => none
  | .closer, .mk f kids =>
      match closerStep f with
      | none => none
      | some f' => some (.mk f' kids, false)
  | .kid i a, .mk f kids =>
      match kids[i]? with
      | none => none
      | some k =>
        match walkStep a k with
        | none => none
        | some (k', false) => some (.mk f (kids.set i k'), false)
        | some (k', true) =>
            if f.subWg = 0 then none
            else some (.mk { f with subWg := f.subWg - 1 } (kids.set i k'), false)

/-! ## The caller (`main.go`, lines 174-187, and `TestWalk`) -/

/-- How the caller of the outermost `walk` receives. -/
inductive Caller where
  /-- One `select` over `dirCh` and `errCh`, as in `main` and in `TestWalk`. -/
  | once
  /-- A caller that keeps receiving from both channels. -/
  | always

/-- The outermost call with its caller: the counter of the caller's `wg` and the values the
caller has received, in order. -/
structure Sys where
  root : Goroutine
  wg : Nat
  got : List Msg

/-- The state after `wg.Add(1)` and `go walk(path, &wg, dirCh, errCh)`. -/
def start (path : Dir) : Sys := { root := spawn path, wg := 1, got := [] }

/-- One step of a schedule of the whole program. -/
inductive SysAct where
  /-- The caller receives what the outermost call is sending. -/
  | recv
  /-- A step of the goroutines of the outermost call. -/
  | walk (a : Act)

/-- Whether the caller is still receiving. -/
def Caller.receives : Caller → List Msg → Bool
  | .once, got => got.isEmpty
  | .always, _ => true

/-- One step of the program. -/
def sysStep (c : Caller) : SysAct → Sys → Option Sys
  | .recv, s =>
      if c.receives s.got then
        match offer s.root with
        | none => none
        | some m => some { s with root := delivered s.root, got := s.got ++ [m] }
      else none
  | .walk a, s =>
      match walkStep a s.root with
      | none => none
      | some (r, false) => some { s with root := r }
      | some (r, true) => if s.wg = 0 then none else some { s with root := r, wg := s.wg - 1 }

/-- A schedule, run from a state; `none` when one of its steps cannot be taken. -/
def sysRun (c : Caller) : List SysAct → Sys → Option Sys
  | [], s => some s
  | a :: as, s =>
      match sysStep c a s with
      | none => none
      | some s' => sysRun c as s'

/-! ## What a caller observes of the calls it spawned -/

/-- Whether the goroutine has ended. -/
def Pc.isReturned : Pc → Bool
  | .returned => true
  | _ => false

/-- Whether the call has left the loop of line 148. -/
def Pc.pastLoop : Pc → Bool
  | .result => true
  | .deferred => true
  | .returned => true
  | _ => false

/-- What matters of a spawned call to the call that spawned it: the directory it walks, the
values it has handed over, and whether it has ended. -/
structure Obs where
  path : Dir
  sent : List Msg
  returned : Bool

/-- What the caller of a call observes of it. -/
def Goroutine.obs (g : Goroutine) : Obs :=
  ⟨g.frame.path, g.frame.sent, g.frame.pc.isReturned⟩

/-- The errors among a list of values, in order. -/
def errsOf : List Msg → List Error
  | [] => []
  | .err e :: ms => e :: errsOf ms
  | .dir _ :: ms => errsOf ms

/-- The `WalkDir`s among a list of values, in order. -/
def dirsOf : List Msg → List WalkDir
  | [] => []
  | .err _ :: ms => dirsOf ms
  | .dir d :: ms => d :: dirsOf ms

/-- The directories among the entries of a listing, in order. -/
def subdirs : List Entry → List Dir
  | [] => []
  | .file _ :: es => subdirs es
  | .dir _ target :: es => target :: subdirs es

/-- The `WalkFile`s built from the entries of a listing that are not directories. -/
def filesOf : List Entry → List WalkFile
  | [] => []
  | .file info :: es => ⟨info.name, info.size⟩ :: filesOf es
  | .dir _ _ :: es => filesOf es

/-- The number of calls that have not ended. -/
def liveCount (os : List Obs) : Nat :=
  (os.map fun o => if o.returned then 0 else 1).sum

/-- All errors handed over by a list of calls. -/
def sentErrs (os : List Obs) : Multiset Error :=
  (os.map fun o => Multiset.ofList (errsOf o.sent)).sum

/-- All `WalkDir`s handed over by a list of calls. -/
def sentDirs (os : List Obs) : Multiset WalkDir :=
  (os.map fun o => Multiset.ofList (dirsOf o.sent)).sum

/-- The `WalkDir` built at line 166. -/
def Frame.node (f : Frame) : WalkDir := .mk f.info.name f.size f.dirs f.files

/-! ## The invariant of a call -/

/-- The call's own `Lstat` or `ReadDir` fails with `e`. -/
def OwnFailure (p : Dir) (e : Error) : Prop :=
  p.lstat = .error e ∨ ((∃ info, p.lstat = .ok info) ∧ p.readErr = some e)

/-- The call's own `Lstat` and `ReadDir` succeed. -/
def OwnOk (p : Dir) : Prop := (∃ info, p.lstat = .ok info) ∧ p.readErr = none

/-- The call's own `Lstat` and `ReadDir` succeeded, and `info` is what `Lstat` returned. -/
def Listed (f : Frame) : Prop :=
  f.path.lstat = .ok f.info ∧ f.path.readErr = none

/-- Nothing has been spawned, counted or closed. -/
structure Idle (f : Frame) (os : List Obs) : Prop where
  kids : os = []
  dirs : f.dirs = []
  files : f.files = []
  subWg : f.subWg = 0
  closer : f.closer = .notStarted
  dirOpen : f.subDirClosed = false
  errOpen : f.subErrClosed = false

/-- The state of the two channels agrees with the place of the goroutine that closes them,
which is past `subWg.Wait()` only when the counter is zero. -/
def CloserOk (f : Frame) : Prop :=
  match f.closer with
  | .notStarted => f.subDirClosed = false ∧ f.subErrClosed = false
  | .wait => f.subDirClosed = false ∧ f.subErrClosed = false
  | .closeDir => f.subWg = 0 ∧ f.subDirClosed = false ∧ f.subErrClosed = false
  | .closeErr => f.subWg = 0 ∧ f.subDirClosed = true ∧ f.subErrClosed = false
  | .finished => f.subWg = 0 ∧ f.subDirClosed = true ∧ f.subErrClosed = true

/-- The invariant of the loop of line 126, with `rest` still to visit. -/
structure Scanning (f : Frame) (os : List Obs) (rest : List Entry) : Prop where
  listed : Listed f
  seen : ∃ seen, f.path.entries = seen ++ rest ∧ os.map Obs.path = subdirs seen ∧
    f.files = filesOf seen ∧ f.size = f.info.size + ((filesOf seen).map WalkFile.Size).sum
  quiet : ∀ o ∈ os, o.sent = []
  subWg : f.subWg = liveCount os
  sent : f.sent = []
  dirs : f.dirs = []
  closer : f.closer = .notStarted
  dirOpen : f.subDirClosed = false
  errOpen : f.subErrClosed = false

/-- The invariant of the loop of line 148; `pend` is the error received and not yet
forwarded, if there is one. -/
structure Gathering (f : Frame) (os : List Obs) (pend : List Error) : Prop where
  listed : Listed f
  kidsOf : os.map Obs.path = subdirs f.path.entries
  files : f.files = filesOf f.path.entries
  subWg : f.subWg = liveCount os
  started : f.closer ≠ .notStarted
  closerOk : CloserOk f
  dirs : Multiset.ofList f.dirs = sentDirs os
  errs : Multiset.ofList (errsOf f.sent ++ pend) = sentErrs os
  size : f.size = f.info.size + (f.files.map WalkFile.Size).sum + (f.dirs.map WalkDir.Size).sum

/-- One of the two channels has been closed. -/
def Closed (f : Frame) : Prop := f.subDirClosed = true ∨ f.subErrClosed = true

/-- The call has handed over errors only. -/
def Unsent (f : Frame) : Prop := dirsOf f.sent = []

/-- The invariant of a call that has returned: either its own `Lstat` or `ReadDir` failed and
it handed over that error and nothing else, or it left the loop and handed over its
`WalkDir` last. -/
def Ended (f : Frame) (os : List Obs) : Prop :=
  (Idle f os ∧ ∃ e, OwnFailure f.path e ∧ f.sent = [.err e]) ∨
  (Gathering f os [] ∧ Closed f ∧ f.sent = (errsOf f.sent).map Msg.err ++ [.dir f.node])

/-- The invariant of a call at a given place. -/
def LocalAt : Pc → Frame → List Obs → Prop
  | .lstat, f, os => Idle f os ∧ f.sent = []
  | .readDir, f, os => Idle f os ∧ f.sent = [] ∧ f.path.lstat = .ok f.info
  | .ownErr e, f, os => Idle f os ∧ f.sent = [] ∧ OwnFailure f.path e
  | .range rest, f, os => Scanning f os rest
  | .select, f, os => Gathering f os [] ∧ Unsent f
  | .forward e, f, os => Gathering f os [e] ∧ Unsent f
  | .result, f, os => Gathering f os [] ∧ Unsent f ∧ Closed f
  | .deferred, f, os => Ended f os
  | .returned, f, os => Ended f os

/-- The invariant of a tree of calls. -/
inductive Inv : Goroutine → Prop
  | mk (f : Frame) (kids : List Goroutine) :
      LocalAt f.pc f (kids.map Goroutine.obs) → (∀ k ∈ kids, Inv k) → Inv (.mk f kids)

/-- The invariant of the program that walks `path`: the tree of calls satisfies `Inv`, the
caller has received what the outermost call has handed over, and the caller's counter is
one until the outermost call has ended. -/
structure SysInv (path : Dir) (s : Sys) : Prop where
  root : Inv s.root
  path : s.root.frame.path = path
  got : s.got = s.root.frame.sent
  wg : s.wg = if s.root.frame.pc.isReturned then 0 else 1

/-- A call is `Within` another when it is that call or was spawned, at any depth, by it. -/
inductive Within : Goroutine → Goroutine → Prop
  | self (g : Goroutine) : Within g g
  | kid {g k r : Goroutine} : k ∈ r.kids → Within g k → Within g r

/-! ## Quantities of a directory tree -/

mutual
/-- The `Lstat` or the `ReadDir` of the directory, or of a directory below it, fails. -/
def fails : Dir → Bool
  | .mk lstat readErr entries =>
    match lstat with
    | .error _ => true
    | .ok _ =>
      match readErr with
      | some _ => true
      | none => failsAny entries
/-- One of the directories of a listing fails. -/
def failsAny : List Entry → Bool
  | [] => false
  | .file _ :: es => failsAny es
  | .dir _ target :: es => fails target || failsAny es
end

mutual
/-- The recursive size of a directory: its own size, the sizes of its files and the
recursive sizes of its sub-directories, added in `int64`. -/
def total : Dir → Int64
  | .mk lstat _ entries =>
    match lstat with
    | .error _ => 0
    | .ok info => info.size + totalEntries entries
/-- The sizes of the files and the recursive sizes of the directories of a listing. -/
def totalEntries : List Entry → Int64
  | [] => 0
  | .file info :: es => info.size + totalEntries es
  | .dir _ target :: es => total target + totalEntries es
end

mutual
/-- The node `d` is `Summed` for the directory `p`: `p` can be read, `d` has the name of `p`
and the files listed in `p`, its `Size` is the `Lstat` size of `p` plus the sizes of its `Files`
plus the sizes of its `Dirs`, in `int64`, and its `Dirs` are `Summed` for sub-directories of
`p`, each node for a sub-directory of its own. -/
def Summed : WalkDir → Dir → Prop
  | .mk name size dirs files, p =>
      (∃ info, p.lstat = .ok info ∧ p.readErr = none ∧ name = info.name ∧
        size = info.size + (files.map WalkFile.Size).sum + (dirs.map WalkDir.Size).sum) ∧
      files = filesOf p.entries ∧
      SummedAll dirs (subdirs p.entries)
/-- The nodes of the list are `Summed` for directories of the second list, each node for a
directory of its own: the first node for one of the directories, the other nodes for the
directories that remain when that one is taken out. -/
def SummedAll : List WalkDir → List Dir → Prop
  | [], _ => True
  | c :: cs, qs => ∃ l₁ q l₂, qs = l₁ ++ q :: l₂ ∧ Summed c q ∧ SummedAll cs (l₁ ++ l₂)
end

/-! ## Termination -/

/-- Whether the anonymous goroutine is not running: it was never started or it has ended. -/
def Closer.isDone : Closer → Bool
  | .notStarted => true
  | .finished => true
  | _ => false

mutual
/-- Every goroutine of the tree has ended. -/
def Goroutine.allDone : Goroutine → Bool
  | .mk f kids => f.pc.isReturned && f.closer.isDone && allDoneList kids
/-- Every goroutine of a list of trees has ended. -/
def allDoneList : List Goroutine → Bool
  | [] => true
  | k :: ks => k.allDone && allDoneList ks
end

/-- How far a call has come. The gap before `select` makes up for the `go` statement of
line 139, which sets the place of the anonymous goroutine. -/
def Pc.rank : Pc → Nat
  | .lstat => 0
  | .readDir => 1
  | .ownErr _ => 2
  | .range _ => 2
  | .select => 7
  | .forward _ => 7
  | .result => 8
  | .deferred => 9
  | .returned => 10

/-- How far the anonymous goroutine has come. -/
def Closer.rank : Closer → Nat
  | .notStarted => 0
  | .wait => 1
  | .closeDir => 2
  | .closeErr => 3
  | .finished => 4

mutual
/-- A measure of how far the goroutines of a tree have come; every step increases it. -/
def Goroutine.work : Goroutine → Nat
  | .mk f kids => f.pc.rank + f.closer.rank + f.files.length + kids.length + workList kids
/-- The measure of a list of trees, including the values they have handed over. -/
def workList : List Goroutine → Nat
  | [] => 0
  | k :: ks => (k.frame.sent.length + k.work) + workList ks
end

/-- The measure of a state of the program. -/
def Sys.work (s : Sys) : Nat := s.root.work + s.got.length

mutual
/-- A bound on the number of steps of a walk of a directory. -/
def bound : Dir → Nat
  | .mk _ _ entries => 15 + entries.length + 2 * boundEntries entries
/-- The sum of the bounds of the directories of a listing. -/
def boundEntries : List Entry → Nat
  | [] => 0
  | .file _ :: es => boundEntries es
  | .dir _ target :: es => bound target + boundEntries es
end

/-! ## Sample inputs -/

/-- A directory in which nothing fails: a file, a sub-directory `x` with a file, and an empty
sub-directory `y`. -/
def demoDir : Dir :=
  .mk (.ok ⟨".", .ofInt 4096⟩) none
    [.file ⟨"a.txt", .ofInt 10⟩,
     .dir ⟨"x", .ofInt 4096⟩ (.mk (.ok ⟨"x", .ofInt 4096⟩) none [.file ⟨"f", .ofInt 100⟩]),
     .dir ⟨"y", .ofInt 4096⟩ (.mk (.ok ⟨"y", .ofInt 4096⟩) none [])]

/-- A node that is not what a walk of `demoDir` builds: the sub-nodes carry each other's sizes
and files. -/
def swappedNode : WalkDir :=
  .mk "." (.ofInt 12398)
    [.mk "x" (.ofInt 4096) [] [], .mk "y" (.ofInt 4196) [] [⟨"f", .ofInt 100⟩]]
    [⟨"a.txt", .ofInt 10⟩]

/-- A complete schedule of the walk of `demoDir`, in which `x` delivers before `y`. -/
def demoSched : List SysAct :=
  [.walk .run, .walk .run, .walk .run, .walk .run, .walk .run, .walk .run, .walk (.kid 0 .run),
   .walk (.kid 0 .run), .walk (.kid 0 .run), .walk (.kid 0 .run), .walk (.kid 0 .closer),
   .walk (.kid 0 .closer), .walk (.kid 0 .dirClosed), .walk (.kid 1 .run), .walk (.kid 1 .run),
   .walk (.kid 1 .run), .walk (.kid 1 .closer), .walk (.kid 1 .closer),
   .walk (.kid 1 .dirClosed), .walk (.recv 0), .walk (.recv 1), .walk (.kid 0 .run),
   .walk (.kid 0 .closer), .walk (.kid 1 .run), .walk (.kid 1 .closer), .walk .closer,
   .walk .closer, .walk .closer, .walk .dirClosed, .recv, .walk .run]

/-- The state `demoSched` leads to, for a caller that receives once. -/
def demoEnd : Sys := (sysRun .once demoSched (start demoDir)).get (by decide)

/-- A complete schedule of the walk of `demoDir`, in which `y` delivers before `x`. -/
def demoSched2 : List SysAct :=
  [.walk .run, .walk .run, .walk .run, .walk .run, .walk .run, .walk .run, .walk (.kid 0 .run),
   .walk (.kid 0 .run), .walk (.kid 0 .run), .walk (.kid 0 .run), .walk (.kid 0 .closer),
   .walk (.kid 0 .closer), .walk (.kid 0 .dirClosed), .walk (.kid 1 .run), .walk (.kid 1 .run),
   .walk (.kid 1 .run), .walk (.kid 1 .closer), .walk (.kid 1 .closer),
   .walk (.kid 1 .dirClosed), .walk (.recv 1), .walk (.recv 0), .walk (.kid 1 .run),
   .walk (.kid 1 .closer), .walk (.kid 0 .run), .walk (.kid 0 .closer), .walk .closer,
   .walk .closer, .walk .closer, .walk .dirClosed, .recv, .walk .run]

/-- The state `demoSched2` leads to, for a caller that keeps receiving. -/
def demoEnd2 : Sys := (sysRun .always demoSched2 (start demoDir)).get (by decide)

/-- A readable directory whose listing is empty. -/
def emptyDir : Dir := .mk (.ok ⟨"empty", .ofInt 4096⟩) none []

/-- A complete schedule of the walk of `emptyDir`. -/
def emptySched : List SysAct :=
  [.walk .run, .walk .run, .walk .run, .walk .closer, .walk .closer, .walk .dirClosed, .recv,
   .walk .run, .walk .closer]

/-- The state `emptySched` leads to. -/
def emptyEnd : Sys := (sysRun .once emptySched (start emptyDir)).get (by decide)

/-- A directory with a sub-directory `mid` that holds a readable empty directory `a` and a
directory `b` whose listing fails. -/
def failDir : Dir :=
  .mk (.ok ⟨".", .ofInt 4096⟩) none
    [.dir ⟨"mid", .ofInt 4096⟩ (.mk (.ok ⟨"mid", .ofInt 4096⟩) none
      [.dir ⟨"a", .ofInt 4096⟩ (.mk (.ok ⟨"a", .ofInt 4096⟩) none []),
       .dir ⟨"b", .ofInt 4096⟩ (.mk (.ok ⟨"b", .ofInt 4096⟩) (some "permission denied") [])])]

/-- A schedule of the walk of `failDir` up to the first value the caller receives. -/
def failFirst : List SysAct :=
  [.walk .run, .walk .run, .walk .run, .walk .run,
   .walk (.kid 0 .run), .walk (.kid 0 .run), .walk (.kid 0 .run), .walk (.kid 0 .run),
   .walk (.kid 0 .run),
   .walk (.kid 0 (.kid 0 .run)), .walk (.kid 0 (.kid 0 .run)), .walk (.kid 0 (.kid 0 .run)),
   .walk (.kid 0 (.kid 0 .closer)), .walk (.kid 0 (.kid 0 .closer)),
   .walk (.kid 0 (.kid 0 .dirClosed)),
   .walk (.kid 0 (.kid 1 .run)), .walk (.kid 0 (.kid 1 .run)),
   .walk (.kid 0 (.recv 1)), .walk (.recv 0), .recv]

/-- The state `failFirst` leads to, for a caller that receives once. -/
def failFirstEnd : Sys := (sysRun .once failFirst (start failDir)).get (by decide)

/-- The steps that follow `failFirst` until the outermost call is blocked sending its
`WalkDir`. -/
def failMore : List SysAct :=
  [.walk (.kid 0 (.kid 1 .run)), .walk (.kid 0 (.recv 0)), .walk (.kid 0 (.kid 0 .run)),
   .walk (.kid 0 (.kid 0 .closer)),
   .walk (.kid 0 .closer), .walk (.kid 0 .closer), .walk (.kid 0 .closer),
   .walk (.kid 0 .dirClosed), .walk (.recv 0), .walk (.kid 0 .run),
   .walk .closer, .walk .closer, .walk .closer, .walk .dirClosed]

/-- The rest of a complete schedule of the walk of `failDir`, for a caller that keeps
receiving. -/
def failRest : List SysAct := failMore ++ [.recv, .walk .run]

/-- The state `failFirst ++ failMore` leads to, for a caller that receives once. -/
def failOnceEnd : Sys := (sysRun .once (failFirst ++ failMore) (start failDir)).get (by decide)

/-- The state the complete schedule leads to, for a caller that keeps receiving. -/
def failEnd : Sys := (sysRun .always (failFirst ++ failRest) (start failDir)).get (by decide)

/-- The call that walks `mid` at the end of the complete schedule of `failDir`. -/
def failMid : Goroutine := (failEnd.root.kids[0]?).get (by decide)

/-! ## int64 arithmetic -/

theorem Int64.add_val (a b : Int64) : (a + b).val = wrap64 (a.val + b.val) := rfl

theorem Int64.zero_val : (0 : Int64).val = 0 := by decide

theorem wrap64_add_wrap64 (a b : Int) : wrap64 (a + wrap64 b) = wrap64 (a + b) := by
  unfold wrap64; omega

theorem wrap64_wrap64_add (a b : Int) : wrap64 (wrap64 a + b) = wrap64 (a + b) := by
  unfold wrap64; omega

/-- A sum of a list in `int64` is the sum of the integers, wrapped once. -/
theorem Int64.val_sum (l : List Int64) : l.sum.val = wrap64 ((l.map Int64.val).sum) := by
  induction l with
  | nil => decide
  | cons a l ih =>
      simp only [List.sum_cons, List.map_cons, Int64.add_val, ih, wrap64_add_wrap64]

/-! ## Lists of values and of entries -/

theorem errsOf_append (a b : List Msg) : errsOf (a ++ b) = errsOf a ++ errsOf b := by
  induction a with
  | nil => rfl
  | cons m a ih => cases m <;> simp [errsOf, ih]

theorem dirsOf_append (a b : List Msg) : dirsOf (a ++ b) = dirsOf a ++ dirsOf b := by
  induction a with
  | nil => rfl
  | cons m a ih => cases m <;> simp [dirsOf, ih]

theorem subdirs_append (a b : List Entry) : subdirs (a ++ b) = subdirs a ++ subdirs b := by
  induction a with
  | nil => rfl
  | cons e a ih => cases e <;> simp [subdirs, ih]

theorem filesOf_append (a b : List Entry) : filesOf (a ++ b) = filesOf a ++ filesOf b := by
  induction a with
  | nil => rfl
  | cons e a ih => cases e <;> simp [filesOf, ih]

theorem dirsOf_map_err (es : List Error) : dirsOf (es.map Msg.err) = [] := by
  induction es with
  | nil => rfl
  | cons e es ih => simp [dirsOf, ih]

/-- A list of values without a `WalkDir` is the list of its errors. -/
theorem eq_map_err_of_dirsOf_nil : ∀ ms : List Msg, dirsOf ms = [] → ms = (errsOf ms).map Msg.err
  | [], _ => rfl
  | .err e :: ms, h => by
      simp only [errsOf, List.map_cons]
      rw [← eq_map_err_of_dirsOf_nil ms (by simpa [dirsOf] using h)]
  | .dir d :: ms, h => by simp [dirsOf] at h

/-! ## Replacing one element of a list -/

theorem sum_map_set {α M : Type} [AddCommMonoid M] (f : α → M) :
    ∀ (l : List α) (i : Nat) (x y : α) (a b : M), l[i]? = some x → f y + a = f x + b →
      ((l.set i y).map f).sum + a = (l.map f).sum + b
  | [], _, _, _, _, _, h, _ => by simp at h
  | z :: l, 0, x, y, a, b, h, e => by
      simp at h; subst h
      simp only [List.set_cons_zero, List.map_cons, List.sum_cons]
      rw [add_right_comm, e, add_right_comm]
  | z :: l, i + 1, x, y, a, b, h, e => by
      simp only [List.set_cons_succ, List.map_cons, List.sum_cons]
      rw [add_assoc, sum_map_set f l i x y a b (by simpa using h) e, add_assoc]

theorem map_set_same {α β : Type} (f : α → β) :
    ∀ (l : List α) (i : Nat) (x y : α), l[i]? = some x → f y = f x →
      (l.set i y).map f = l.map f
  | [], _, _, _, h, _ => by simp at h
  | z :: l, 0, x, y, h, e => by
      simp at h; subst h
      simp [e]
  | z :: l, i + 1, x, y, h, e => by
      simp only [List.set_cons_succ, List.map_cons]
      rw [map_set_same f l i x y (by simpa using h) e]

/-! ## What a step changes of what the caller observes -/

theorem offer_not_returned {g : Goroutine} {m : Msg} (h : offer g = some m) :
    g.obs.returned = false := by
  unfold offer at h
  unfold Goroutine.obs
  split at h <;> simp_all [Pc.isReturned]

theorem obs_delivered {g : Goroutine} {m : Msg} (h : offer g = some m) :
    (delivered g).obs = ⟨g.obs.path, g.obs.sent ++ [m], false⟩ := by
  unfold delivered
  unfold offer at h
  split at h <;> simp_all [Goroutine.obs, Goroutine.frame, Pc.isReturned, offer]

theorem runStep_obs {f : Frame} {kids : List Goroutine} {g' : Goroutine} {b : Bool}
    (h : runStep f kids = some (g', b)) :
    g'.obs.path = f.path ∧ g'.obs.sent = f.sent ∧
      (b = false → g'.obs.returned = f.pc.isReturned) ∧
      (b = true → f.pc.isReturned = false ∧ g'.obs.returned = true) := by
  unfold runStep at h
  split at h
  · split at h <;> simp at h <;> obtain ⟨rfl, rfl⟩ := h <;>
      simp_all [Goroutine.obs, Goroutine.frame, Pc.isReturned]
  · split at h <;> simp at h <;> obtain ⟨rfl, rfl⟩ := h <;>
      simp_all [Goroutine.obs, Goroutine.frame, Pc.isReturned]
  all_goals first
    | (simp at h; done)
    | (simp at h; obtain ⟨rfl, rfl⟩ := h; simp_all [Goroutine.obs, Goroutine.frame, Pc.isReturned])

theorem closerStep_same {f f' : Frame} (h : closerStep f = some f') :
    f'.path = f.path ∧ f'.sent = f.sent ∧ f'.pc = f.pc ∧ f'.info = f.info ∧ f'.size = f.size ∧
      f'.dirs = f.dirs ∧ f'.files = f.files ∧ f'.subWg = f.subWg := by
  unfold closerStep at h
  split at h
  · split at h <;> simp at h; subst h; simp
  all_goals first
    | (simp at h; done)
    | (simp at h; subst h; simp)

theorem walkStep_obs {a : Act} {g g' : Goroutine} {b : Bool} (h : walkStep a g = some (g', b)) :
    g'.obs.path = g.obs.path ∧ g'.obs.sent = g.obs.sent ∧
      (b = false → g'.obs.returned = g.obs.returned) ∧
      (b = true → g.obs.returned = false ∧ g'.obs.returned = true) := by
  obtain ⟨f, kids⟩ := g
  cases a with
  | run => exact runStep_obs h
  | recv i =>
      simp only [walkStep] at h
      split at h; · simp at h
      split at h; · simp at h
      rename_i m _
      split at h; · simp at h
      rename_i f' hf
      simp at h; obtain ⟨rfl, rfl⟩ := h
      unfold recvStep at hf
      split at hf
      · split at hf <;> simp at hf; subst hf; simp_all [Goroutine.obs, Goroutine.frame]
      · split at hf <;> simp at hf; subst hf; simp_all [Goroutine.obs, Goroutine.frame, Pc.isReturned]
      · simp at hf
  | dirClosed =>
      simp only [walkStep] at h
      split at h
      · split at h <;> simp at h; obtain ⟨rfl, rfl⟩ := h
        simp_all [Goroutine.obs, Goroutine.frame, Pc.isReturned]
      · simp at h
  | errClosed =>
      simp only [walkStep] at h
      split at h
      · split at h <;> simp at h; obtain ⟨rfl, rfl⟩ := h
        simp_all [Goroutine.obs, Goroutine.frame, Pc.isReturned]
      · simp at h
  | closer =>
      simp only [walkStep] at h
      split at h; · simp at h
      rename_i f' hf
      simp at h; obtain ⟨rfl, rfl⟩ := h
      obtain ⟨h1, h2, h3, -⟩ := closerStep_same hf
      simp [Goroutine.obs, Goroutine.frame, h1, h2, h3]
  | kid i a =>
      simp only [walkStep] at h
      split at h; · simp at h
      split at h
      · simp at h
      · simp at h; obtain ⟨rfl, rfl⟩ := h; simp [Goroutine.obs, Goroutine.frame]
      · split at h <;> simp at h; obtain ⟨rfl, rfl⟩ := h; simp [Goroutine.obs, Goroutine.frame]
/-! ## Sums over the spawned calls -/

theorem set_same {α : Type} : ∀ (l : List α) (i : Nat) (x : α), l[i]? = some x → l.set i x = l
  | [], _, _, h => by simp at h
  | z :: l, 0, x, h => by simp at h; subst h; rfl
  | z :: l, i + 1, x, h => by
      simp only [List.set_cons_succ]
      rw [set_same l i x (by simpa using h)]

theorem liveCount_eq_zero {os : List Obs} (h : liveCount os = 0) : ∀ o ∈ os, o.returned = true := by
  induction os with
  | nil => simp
  | cons o os ih =>
      simp only [liveCount, List.map_cons, List.sum_cons, Nat.add_eq_zero_iff] at h
      intro x hx
      rcases List.mem_cons.1 hx with rfl | hx
      · by_contra hc; simp [hc] at h
      · exact ih h.2 x hx

theorem liveCount_pos {os : List Obs} {o : Obs} (hm : o ∈ os) (h : o.returned = false) :
    liveCount os ≠ 0 := by
  intro hz
  have := liveCount_eq_zero hz o hm
  simp [h] at this

theorem sentErrs_of_quiet {os : List Obs} (h : ∀ o ∈ os, o.sent = []) : sentErrs os = 0 := by
  induction os with
  | nil => rfl
  | cons o os ih =>
      simp only [sentErrs, List.map_cons, List.sum_cons]
      rw [h o (List.mem_cons_self _ _)]
      have := ih (fun x hx => h x (List.mem_cons_of_mem _ hx))
      simp only [sentErrs] at this
      rw [this]; rfl

theorem sentDirs_of_quiet {os : List Obs} (h : ∀ o ∈ os, o.sent = []) : sentDirs os = 0 := by
  induction os with
  | nil => rfl
  | cons o os ih =>
      simp only [sentDirs, List.map_cons, List.sum_cons]
      rw [h o (List.mem_cons_self _ _)]
      have := ih (fun x hx => h x (List.mem_cons_of_mem _ hx))
      simp only [sentDirs] at this
      rw [this]; rfl

/-- The effect on the sums of a child handing over a value. -/
theorem set_sent {os : List Obs} {i : Nat} {o : Obs} (h : os[i]? = some o)
    (hr : o.returned = false) (m : Msg) :
    (os.set i ⟨o.path, o.sent ++ [m], false⟩).map Obs.path = os.map Obs.path ∧
    liveCount (os.set i ⟨o.path, o.sent ++ [m], false⟩) = liveCount os ∧
    sentErrs (os.set i ⟨o.path, o.sent ++ [m], false⟩) = sentErrs os + Multiset.ofList (errsOf [m]) ∧
    sentDirs (os.set i ⟨o.path, o.sent ++ [m], false⟩) = sentDirs os + Multiset.ofList (dirsOf [m]) := by
  refine ⟨map_set_same _ _ _ _ _ h rfl, ?_, ?_, ?_⟩
  · have := sum_map_set (fun o : Obs => if o.returned then 0 else 1) os i o
      ⟨o.path, o.sent ++ [m], false⟩ 0 0 h (by simp [hr])
    simpa [liveCount] using this
  · have := sum_map_set (fun o : Obs => Multiset.ofList (errsOf o.sent)) os i o
      ⟨o.path, o.sent ++ [m], false⟩ 0 (Multiset.ofList (errsOf [m])) h (by simp [errsOf_append])
    simpa [sentErrs] using this
  · have := sum_map_set (fun o : Obs => Multiset.ofList (dirsOf o.sent)) os i o
      ⟨o.path, o.sent ++ [m], false⟩ 0 (Multiset.ofList (dirsOf [m])) h (by simp [dirsOf_append])
    simpa [sentDirs] using this

/-- The effect on the sums of a child ending. -/
theorem set_done {os : List Obs} {i : Nat} {o o' : Obs} (h : os[i]? = some o)
    (hp : o'.path = o.path) (hs : o'.sent = o.sent) (hr : o.returned = false)
    (hr' : o'.returned = true) :
    (os.set i o').map Obs.path = os.map Obs.path ∧
    liveCount (os.set i o') + 1 = liveCount os ∧
    sentErrs (os.set i o') = sentErrs os ∧
    sentDirs (os.set i o') = sentDirs os ∧
    (os.set i o').map Obs.sent = os.map Obs.sent := by
  refine ⟨map_set_same _ _ _ _ _ h hp, ?_, ?_, ?_, map_set_same _ _ _ _ _ h hs⟩
  · have := sum_map_set (fun o : Obs => if o.returned then 0 else 1) os i o o' 1 0 h
      (by simp [hr, hr'])
    simpa [liveCount] using this
  · have := sum_map_set (fun o : Obs => Multiset.ofList (errsOf o.sent)) os i o o' 0 0 h
      (by simp [hs])
    simpa [sentErrs] using this
  · have := sum_map_set (fun o : Obs => Multiset.ofList (dirsOf o.sent)) os i o o' 0 0 h
      (by simp [hs])
    simpa [sentDirs] using this
/-! ## Every step keeps the invariant -/

theorem Inv.ofSpawn (path : Dir) : Inv (spawn path) :=
  Inv.mk _ _ ⟨⟨rfl, rfl, rfl, rfl, rfl, rfl, rfl⟩, rfl⟩ (by simp)

theorem Inv.local {g : Goroutine} (h : Inv g) :
    LocalAt g.frame.pc g.frame (g.kids.map Goroutine.obs) := by
  cases h with
  | mk f kids hl hk => exact hl

theorem Inv.kids {g : Goroutine} (h : Inv g) : ∀ k ∈ g.kids, Inv k := by
  cases h with
  | mk f kids hl hk => exact hk

theorem Idle.frame {f f' : Frame} {os : List Obs} (h : Idle f os) (h1 : f'.dirs = f.dirs)
    (h2 : f'.files = f.files) (h3 : f'.subWg = f.subWg) (h4 : f'.closer = f.closer)
    (h5 : f'.subDirClosed = f.subDirClosed) (h6 : f'.subErrClosed = f.subErrClosed) :
    Idle f' os :=
  ⟨h.kids, h1.trans h.dirs, h2.trans h.files, h3.trans h.subWg, h4.trans h.closer,
    h5.trans h.dirOpen, h6.trans h.errOpen⟩

theorem Gathering.setPc {f : Frame} {os : List Obs} {pend : List Error}
    (h : Gathering f os pend) (pc : Pc) : Gathering { f with pc := pc } os pend :=
  ⟨h.listed, h.kidsOf, h.files, h.subWg, h.started, h.closerOk, h.dirs, h.errs, h.size⟩

theorem Ended.withPc {f : Frame} {os : List Obs} (h : Ended f os) (pc : Pc) :
    Ended { f with pc := pc } os := by
  rcases h with ⟨hi, e, he, hs⟩ | ⟨hg, hc, hs⟩
  · exact Or.inl ⟨hi.frame rfl rfl rfl rfl rfl rfl, e, he, hs⟩
  · exact Or.inr ⟨hg.setPc pc, hc, hs⟩

theorem Inv.ofRunStep {f : Frame} {kids : List Goroutine} {g' : Goroutine} {b : Bool}
    (hl : LocalAt f.pc f (kids.map Goroutine.obs)) (hk : ∀ k ∈ kids, Inv k)
    (h : runStep f kids = some (g', b)) : Inv g' := by
  unfold runStep at h
  split at h
  · -- Lstat
    rename_i hpc
    rw [hpc] at hl
    obtain ⟨hi, hs⟩ := hl
    split at h <;> simp at h <;> obtain ⟨rfl, -⟩ := h
    · rename_i err he
      exact Inv.mk _ _ ⟨hi.frame rfl rfl rfl rfl rfl rfl, hs, Or.inl he⟩ hk
    · rename_i info he
      exact Inv.mk _ _ ⟨hi.frame rfl rfl rfl rfl rfl rfl, hs, he⟩ hk
  · -- ReadDir
    rename_i hpc
    rw [hpc] at hl
    obtain ⟨hi, hs, hst⟩ := hl
    split at h <;> simp at h <;> obtain ⟨rfl, -⟩ := h
    · rename_i err he
      exact Inv.mk _ _ ⟨hi.frame rfl rfl rfl rfl rfl rfl, hs, Or.inr ⟨⟨_, hst⟩, he⟩⟩ hk
    · rename_i he
      have hos := hi.kids
      refine Inv.mk _ _ ?_ hk
      show Scanning _ _ _
      refine ⟨⟨hst, he⟩, ⟨[], rfl, by rw [hos]; rfl, hi.files, ?_⟩, by rw [hos]; simp,
        by rw [hos]; exact hi.subWg, hs, hi.dirs, hi.closer, hi.dirOpen, hi.errOpen⟩
      simp [filesOf]
  · -- a file of the listing
    rename_i info rest hpc
    rw [hpc] at hl
    simp at h; obtain ⟨rfl, -⟩ := h
    obtain ⟨seen, h1, h2, h3, h4⟩ := hl.seen
    refine Inv.mk _ _ ?_ hk
    show Scanning _ _ _
    refine ⟨hl.listed, ⟨seen ++ [.file info], by rw [h1]; simp, ?_, ?_, ?_⟩, hl.quiet, hl.subWg,
      hl.sent, hl.dirs, hl.closer, hl.dirOpen, hl.errOpen⟩
    · rw [h2, subdirs_append]; simp [subdirs]
    · show f.files ++ _ = _
      rw [h3, filesOf_append]; rfl
    · show f.size + _ = _
      rw [h4, filesOf_append]; simp [filesOf, add_assoc]
  · -- a directory of the listing
    rename_i info target rest hpc
    rw [hpc] at hl
    simp at h; obtain ⟨rfl, -⟩ := h
    obtain ⟨seen, h1, h2, h3, h4⟩ := hl.seen
    refine Inv.mk _ _ ?_ ?_
    · show Scanning _ _ _
      refine ⟨hl.listed, ⟨seen ++ [.dir info target], by rw [h1]; simp, ?_, ?_, ?_⟩, ?_, ?_,
        hl.sent, hl.dirs, hl.closer, hl.dirOpen, hl.errOpen⟩
      · rw [List.map_append, List.map_append, h2, subdirs_append]; rfl
      · show f.files = _
        rw [h3, filesOf_append]; simp [filesOf]
      · show f.size = _
        rw [h4, filesOf_append]; simp [filesOf]
      · intro o ho
        simp only [List.map_append, List.mem_append, List.map_cons, List.map_nil,
          List.mem_singleton] at ho
        rcases ho with ho | rfl
        · exact hl.quiet o ho
        · rfl
      · show f.subWg + 1 = _
        rw [hl.subWg]
        simp [liveCount, Goroutine.obs, Goroutine.frame, spawn, Pc.isReturned]
    · intro k hk'
      rcases List.mem_append.1 hk' with hk' | hk'
      · exact hk k hk'
      · rw [List.mem_singleton.1 hk']; exact Inv.ofSpawn _
  · -- the end of the listing
    rename_i hpc
    rw [hpc] at hl
    simp at h; obtain ⟨rfl, -⟩ := h
    obtain ⟨seen, h1, h2, h3, h4⟩ := hl.seen
    simp only [List.append_nil] at h1
    subst h1
    refine Inv.mk _ _ ?_ hk
    show Gathering _ _ _ ∧ Unsent _
    refine ⟨⟨hl.listed, h2, h3, hl.subWg, by simp, ⟨hl.dirOpen, hl.errOpen⟩, ?_, ?_, ?_⟩, ?_⟩
    · show Multiset.ofList f.dirs = _
      rw [hl.dirs, sentDirs_of_quiet hl.quiet]; rfl
    · show Multiset.ofList (errsOf f.sent ++ []) = sentErrs (kids.map Goroutine.obs)
      rw [hl.sent, sentErrs_of_quiet hl.quiet]; rfl
    · show f.size = f.info.size + _ + _
      rw [h4, hl.dirs, h3]; simp
    · show dirsOf f.sent = []
      rw [hl.sent]; rfl
  · -- the deferred Done
    rename_i hpc
    rw [hpc] at hl
    simp at h; obtain ⟨rfl, -⟩ := h
    exact Inv.mk _ _ (hl.withPc _) hk
  · simp at h
theorem Gathering.afterCloser {f f' : Frame} {os : List Obs} {pend : List Error}
    (h : Gathering f os pend) (hs : closerStep f = some f') :
    Gathering f' os pend ∧ (Closed f → Closed f') := by
  have hok := h.closerOk
  have hst := h.started
  unfold closerStep at hs
  unfold CloserOk at hok
  split at hs
  · rename_i hc
    split at hs <;> simp at hs
    rename_i hw
    subst hs
    rw [hc] at hok
    exact ⟨⟨h.listed, h.kidsOf, h.files, h.subWg, by simp, ⟨hw, hok.1, hok.2⟩, h.dirs, h.errs,
      h.size⟩, fun hcl => hcl⟩
  · rename_i hc
    simp at hs; subst hs
    rw [hc] at hok
    exact ⟨⟨h.listed, h.kidsOf, h.files, h.subWg, by simp, ⟨hok.1, rfl, hok.2.2⟩, h.dirs, h.errs,
      h.size⟩, fun _ => Or.inl rfl⟩
  · rename_i hc
    simp at hs; subst hs
    rw [hc] at hok
    exact ⟨⟨h.listed, h.kidsOf, h.files, h.subWg, by simp, ⟨hok.1, hok.2.1, rfl⟩, h.dirs, h.errs,
      h.size⟩, fun _ => Or.inr rfl⟩
  · simp at hs

theorem closerStep_started {f f' : Frame} (hs : closerStep f = some f') :
    f.closer ≠ .notStarted := by
  intro hc
  simp [closerStep, hc] at hs

theorem LocalAt.ofCloserStep {f f' : Frame} {os : List Obs} (hl : LocalAt f.pc f os)
    (hs : closerStep f = some f') : LocalAt f'.pc f' os := by
  obtain ⟨-, e2, e3, e4, e5, e6, e7, -⟩ := closerStep_same hs
  have hne := closerStep_started hs
  rw [e3]
  cases hpc : f.pc <;> rw [hpc] at hl
  case lstat => exact absurd hl.1.closer hne
  case readDir => exact absurd hl.1.closer hne
  case ownErr e => exact absurd hl.1.closer hne
  case range rest => exact absurd (Scanning.closer hl) hne
  case select => exact ⟨(hl.1.afterCloser hs).1, by unfold Unsent; rw [e2]; exact hl.2⟩
  case forward e => exact ⟨(hl.1.afterCloser hs).1, by unfold Unsent; rw [e2]; exact hl.2⟩
  case result =>
    exact ⟨(hl.1.afterCloser hs).1, by unfold Unsent; rw [e2]; exact hl.2.1, (hl.1.afterCloser hs).2 hl.2.2⟩
  case deferred =>
    rcases hl with ⟨hi, -⟩ | ⟨hg, hc, hsn⟩
    · exact absurd hi.closer hne
    · refine Or.inr ⟨(hg.afterCloser hs).1, (hg.afterCloser hs).2 hc, ?_⟩
      rw [e2]; unfold Frame.node; rw [e4, e5, e6, e7]; exact hsn
  case returned =>
    rcases hl with ⟨hi, -⟩ | ⟨hg, hc, hsn⟩
    · exact absurd hi.closer hne
    · refine Or.inr ⟨(hg.afterCloser hs).1, (hg.afterCloser hs).2 hc, ?_⟩
      rw [e2]; unfold Frame.node; rw [e4, e5, e6, e7]; exact hsn

theorem Gathering.kidDone {f : Frame} {os : List Obs} {pend : List Error} {i : Nat} {o o' : Obs}
    (h : Gathering f os pend) (hi : os[i]? = some o) (hp : o'.path = o.path)
    (hs : o'.sent = o.sent) (hr : o.returned = false) (hr' : o'.returned = true)
    (hw : f.subWg ≠ 0) : Gathering { f with subWg := f.subWg - 1 } (os.set i o') pend := by
  obtain ⟨e1, e2, e3, e4, -⟩ := set_done hi hp hs hr hr'
  refine ⟨h.listed, by rw [e1]; exact h.kidsOf, h.files, ?_, h.started, ?_, by rw [e4]; exact h.dirs,
    by rw [e3]; exact h.errs, h.size⟩
  · show f.subWg - 1 = _
    have := h.subWg
    omega
  · have hok := h.closerOk
    unfold CloserOk at hok ⊢
    show match f.closer with
      | .notStarted => _
      | .wait => _
      | .closeDir => f.subWg - 1 = 0 ∧ _
      | .closeErr => f.subWg - 1 = 0 ∧ _
      | .finished => f.subWg - 1 = 0 ∧ _
    cases hc : f.closer <;> rw [hc] at hok <;> simp only at hok ⊢
    · exact hok
    · exact hok
    · exact absurd hok.1 hw
    · exact absurd hok.1 hw
    · exact absurd hok.1 hw

theorem LocalAt.afterKidDone {pc : Pc} {f : Frame} {os : List Obs} {i : Nat} {o o' : Obs}
    (hl : LocalAt pc f os) (hi : os[i]? = some o) (hp : o'.path = o.path)
    (hs : o'.sent = o.sent) (hr : o.returned = false) (hr' : o'.returned = true)
    (hw : f.subWg ≠ 0) :
    LocalAt pc { f with subWg := f.subWg - 1 } (os.set i o') := by
  have hne : os ≠ [] := by rintro rfl; simp at hi
  cases pc
  case lstat => exact absurd hl.1.kids hne
  case readDir => exact absurd hl.1.kids hne
  case ownErr e => exact absurd hl.1.kids hne
  case range rest =>
    have hl : Scanning f os rest := hl
    obtain ⟨e1, e2, -, -, e5⟩ := set_done hi hp hs hr hr'
    obtain ⟨seen, h1, h2, h3, h4⟩ := hl.seen
    refine ⟨hl.listed, ⟨seen, h1, by rw [e1]; exact h2, h3, h4⟩, ?_, ?_, hl.sent, hl.dirs,
      hl.closer, hl.dirOpen, hl.errOpen⟩
    · intro x hx
      have : x.sent ∈ (os.set i o').map Obs.sent := List.mem_map_of_mem _ hx
      rw [e5] at this
      obtain ⟨y, hy, hxy⟩ := List.mem_map.1 this
      rw [← hxy]; exact hl.quiet y hy
    · show f.subWg - 1 = _
      have := hl.subWg
      omega
  case select => exact ⟨hl.1.kidDone hi hp hs hr hr' hw, hl.2⟩
  case forward e => exact ⟨hl.1.kidDone hi hp hs hr hr' hw, hl.2⟩
  case result => exact ⟨hl.1.kidDone hi hp hs hr hr' hw, hl.2.1, hl.2.2⟩
  case deferred =>
    rcases hl with ⟨hid, -⟩ | ⟨hg, hc, hsn⟩
    · exact absurd hid.kids hne
    · exact Or.inr ⟨hg.kidDone hi hp hs hr hr' hw, hc, hsn⟩
  case returned =>
    rcases hl with ⟨hid, -⟩ | ⟨hg, hc, hsn⟩
    · exact absurd hid.kids hne
    · exact Or.inr ⟨hg.kidDone hi hp hs hr hr' hw, hc, hsn⟩
theorem Inv.delivered {g : Goroutine} {m : Msg} (h : Inv g) (ho : offer g = some m) :
    Inv (delivered g) := by
  obtain ⟨f, kids⟩ := g
  have hl := h.local
  have hk := h.kids
  simp only [Goroutine.frame, Goroutine.kids] at hl hk
  unfold offer at ho
  unfold FolderSizer.delivered
  simp only [Goroutine.frame] at ho ⊢
  split at ho
  · rename_i e hpc
    simp at ho; subst ho
    rw [hpc] at hl
    simp only [hpc, offer, Goroutine.frame, Goroutine.kids]
    refine Inv.mk _ _ ?_ hk
    exact Or.inl ⟨hl.1.frame rfl rfl rfl rfl rfl rfl, e, hl.2.2, by show f.sent ++ _ = _; rw [hl.2.1]; rfl⟩
  · rename_i e hpc
    simp at ho; subst ho
    rw [hpc] at hl
    simp only [hpc, offer, Goroutine.frame, Goroutine.kids]
    refine Inv.mk _ _ ?_ hk
    obtain ⟨hg, hu⟩ := hl
    refine ⟨⟨hg.listed, hg.kidsOf, hg.files, hg.subWg, hg.started, hg.closerOk, hg.dirs, ?_,
      hg.size⟩, ?_⟩
    · show Multiset.ofList (errsOf (f.sent ++ [Msg.err e]) ++ []) = _
      rw [← hg.errs, errsOf_append]; simp [errsOf]
    · show dirsOf (f.sent ++ [Msg.err e]) = []
      rw [dirsOf_append, hu]; rfl
  · rename_i hpc
    simp at ho; subst ho
    rw [hpc] at hl
    simp only [hpc, offer, Goroutine.frame, Goroutine.kids]
    refine Inv.mk _ _ ?_ hk
    obtain ⟨hg, hu, hc⟩ := hl
    refine Or.inr ⟨⟨hg.listed, hg.kidsOf, hg.files, hg.subWg, hg.started, hg.closerOk, hg.dirs, ?_,
      hg.size⟩, hc, ?_⟩
    · show Multiset.ofList (errsOf (f.sent ++ [Msg.dir _]) ++ []) = _
      rw [← hg.errs, errsOf_append]; simp [errsOf]
    · show f.sent ++ [Msg.dir f.node] = (errsOf (f.sent ++ [Msg.dir f.node])).map Msg.err ++ _
      rw [errsOf_append]
      simp only [errsOf, List.append_nil]
      rw [← eq_map_err_of_dirsOf_nil f.sent hu]
      rfl
  · simp at ho

theorem Obs.ext {o o' : Obs} (h1 : o'.path = o.path) (h2 : o'.sent = o.sent)
    (h3 : o'.returned = o.returned) : o' = o := by
  cases o; cases o'; simp_all

theorem LocalAt.recv {f f' : Frame} {os : List Obs} {i : Nat} {o : Obs} {m : Msg}
    (hl : LocalAt f.pc f os) (hi : os[i]? = some o) (hr : o.returned = false)
    (hs : recvStep f m = some f') :
    LocalAt f'.pc f' (os.set i ⟨o.path, o.sent ++ [m], false⟩) := by
  obtain ⟨e1, e2, e3, e4⟩ := set_sent hi hr m
  unfold recvStep at hs
  split at hs
  · rename_i d hpc
    split at hs <;> simp at hs
    subst hs
    rw [hpc] at hl
    simp only [hpc]
    obtain ⟨hg, hu⟩ := hl
    refine ⟨⟨hg.listed, by rw [e1]; exact hg.kidsOf, hg.files, by rw [e2]; exact hg.subWg,
      hg.started, hg.closerOk, ?_, ?_, ?_⟩, hu⟩
    · show Multiset.ofList (f.dirs ++ [d]) = _
      rw [e4, ← hg.dirs]; rfl
    · rw [e3, ← hg.errs]; simp [errsOf]
    · show f.size + d.Size = f.info.size + _ + (List.map WalkDir.Size (f.dirs ++ [d])).sum
      rw [hg.size]; simp [add_assoc]
  · rename_i e hpc
    split at hs <;> simp at hs
    subst hs
    rw [hpc] at hl
    obtain ⟨hg, hu⟩ := hl
    refine ⟨⟨hg.listed, by rw [e1]; exact hg.kidsOf, hg.files, by rw [e2]; exact hg.subWg,
      hg.started, hg.closerOk, by rw [e4]; simpa [dirsOf] using hg.dirs, ?_, hg.size⟩, hu⟩
    show Multiset.ofList (errsOf f.sent ++ [e]) = _
    rw [e3, ← hg.errs, List.append_nil]; rfl
  · simp at hs

/-- Every step keeps the invariant. -/
theorem Inv.step : ∀ (a : Act) (g g' : Goroutine) (b : Bool),
    Inv g → walkStep a g = some (g', b) → Inv g'
  | .run, .mk f kids, g', b, hinv, h => Inv.ofRunStep hinv.local hinv.kids h
  | .recv i, .mk f kids, g', b, hinv, h => by
      have hl := hinv.local
      have hk := hinv.kids
      simp only [Goroutine.frame, Goroutine.kids] at hl hk
      simp only [walkStep] at h
      split at h; · simp at h
      rename_i k hki
      split at h; · simp at h
      rename_i m hm
      split at h; · simp at h
      rename_i f' hf
      simp at h; obtain ⟨rfl, -⟩ := h
      refine Inv.mk _ _ ?_ ?_
      · rw [List.map_set, obs_delivered hm]
        exact hl.recv (by rw [List.getElem?_map, hki]; rfl) (offer_not_returned hm) hf
      · intro x hx
        rcases List.mem_or_eq_of_mem_set hx with hx | rfl
        · exact hk x hx
        · exact (hk k (List.getElem?_mem hki)).delivered hm
  | .dirClosed, .mk f kids, g', b, hinv, h => by
      have hl := hinv.local
      have hk := hinv.kids
      simp only [Goroutine.frame, Goroutine.kids] at hl hk
      simp only [walkStep] at h
      split at h
      · rename_i hpc
        split at h <;> simp at h
        rename_i hc
        obtain ⟨rfl, -⟩ := h
        rw [hpc] at hl
        exact Inv.mk _ _ ⟨hl.1.setPc _, hl.2, Or.inl hc⟩ hk
      · simp at h
  | .errClosed, .mk f kids, g', b, hinv, h => by
      have hl := hinv.local
      have hk := hinv.kids
      simp only [Goroutine.frame, Goroutine.kids] at hl hk
      simp only [walkStep] at h
      split at h
      · rename_i hpc
        split at h <;> simp at h
        rename_i hc
        obtain ⟨rfl, -⟩ := h
        rw [hpc] at hl
        exact Inv.mk _ _ ⟨hl.1.setPc _, hl.2, Or.inr hc⟩ hk
      · simp at h
  | .closer, .mk f kids, g', b, hinv, h => by
      have hl := hinv.local
      have hk := hinv.kids
      simp only [Goroutine.frame, Goroutine.kids] at hl hk
      simp only [walkStep] at h
      split at h; · simp at h
      rename_i f' hf
      simp at h; obtain ⟨rfl, -⟩ := h
      exact Inv.mk _ _ (hl.ofCloserStep hf) hk
  | .kid i a, .mk f kids, g', b, hinv, h => by
      have hl := hinv.local
      have hk := hinv.kids
      simp only [Goroutine.frame, Goroutine.kids] at hl hk
      simp only [walkStep] at h
      split at h; · simp at h
      rename_i k hki
      have hkinv := hk k (List.getElem?_mem hki)
      have hos : (kids.map Goroutine.obs)[i]? = some k.obs := by rw [List.getElem?_map, hki]; rfl
      split at h
      · simp at h
      · rename_i k' hst
        simp at h; obtain ⟨rfl, -⟩ := h
        obtain ⟨e1, e2, e3, -⟩ := walkStep_obs hst
        refine Inv.mk _ _ ?_ ?_
        · rw [List.map_set, Obs.ext e1 e2 (e3 rfl), set_same _ _ _ hos]; exact hl
        · intro x hx
          rcases List.mem_or_eq_of_mem_set hx with hx | rfl
          · exact hk x hx
          · exact Inv.step a k x false hkinv hst
      · rename_i k' hst
        split at h <;> simp at h
        rename_i hw
        obtain ⟨rfl, -⟩ := h
        obtain ⟨e1, e2, -, e4⟩ := walkStep_obs hst
        refine Inv.mk _ _ ?_ ?_
        · rw [List.map_set]
          exact hl.afterKidDone hos e1 e2 (e4 rfl).1 (e4 rfl).2 hw
        · intro x hx
          rcases List.mem_or_eq_of_mem_set hx with hx | rfl
          · exact hk x hx
          · exact Inv.step a k x true hkinv hst
/-! ## The invariant of the program -/

theorem SysInv.init (path : Dir) : SysInv path (start path) :=
  ⟨Inv.ofSpawn path, rfl, rfl, rfl⟩

theorem SysInv.ofStep {path : Dir} {c : Caller} {a : SysAct} {s s' : Sys} (h : SysInv path s)
    (hs : sysStep c a s = some s') : SysInv path s' := by
  cases a with
  | recv =>
      simp only [sysStep] at hs
      split at hs
      · split at hs; · simp at hs
        rename_i m hm
        simp at hs; subst hs
        have ho := obs_delivered hm
        have hr := offer_not_returned hm
        simp only [Goroutine.obs, Obs.mk.injEq] at ho hr
        refine ⟨h.root.delivered hm, ho.1.trans h.path, ?_, ?_⟩
        · show s.got ++ [m] = _
          rw [ho.2.1, h.got]
        · show s.wg = _
          rw [ho.2.2, h.wg, hr]
      · simp at hs
  | walk a =>
      simp only [sysStep] at hs
      split at hs
      · simp at hs
      · rename_i r hst
        simp at hs; subst hs
        obtain ⟨e1, e2, e3, -⟩ := walkStep_obs hst
        have e3 := e3 rfl
        simp only [Goroutine.obs] at e1 e2 e3
        exact ⟨h.root.step _ _ _ _ hst, e1.trans h.path, h.got.trans e2.symm,
          by show s.wg = _; rw [e3]; exact h.wg⟩
      · rename_i r hst
        split at hs <;> simp at hs
        subst hs
        obtain ⟨e1, e2, -, e4⟩ := walkStep_obs hst
        obtain ⟨e4, e5⟩ := e4 rfl
        simp only [Goroutine.obs] at e1 e2 e4 e5
        refine ⟨h.root.step _ _ _ _ hst, e1.trans h.path, h.got.trans e2.symm, ?_⟩
        show s.wg - 1 = _
        rw [e5, h.wg, e4]; rfl

theorem SysInv.ofRun {path : Dir} {c : Caller} : ∀ (sched : List SysAct) {s s' : Sys},
    SysInv path s → sysRun c sched s = some s' → SysInv path s'
  | [], s, s', h, hs => by simp [sysRun] at hs; subst hs; exact h
  | a :: as, s, s', h, hs => by
      simp only [sysRun] at hs
      split at hs
      · simp at hs
      · rename_i s1 h1
        exact SysInv.ofRun as (h.ofStep h1) hs

/-- The invariant holds in every state a schedule reaches. -/
theorem SysInv.reach {path : Dir} {c : Caller} {sched : List SysAct} {s : Sys}
    (h : sysRun c sched (start path) = some s) : SysInv path s :=
  SysInv.ofRun sched (SysInv.init path) h

theorem Inv.within {g r : Goroutine} (hw : Within g r) : Inv r → Inv g := by
  induction hw with
  | self => exact id
  | kid hk _ ih => exact fun h => ih (h.kids _ hk)
/-! ## Directory trees -/

theorem failsAny_iff (es : List Entry) :
    failsAny es = true ↔ ∃ t ∈ subdirs es, fails t = true := by
  induction es with
  | nil => simp [failsAny, subdirs]
  | cons e es ih => cases e <;> simp [failsAny, subdirs, ih]

theorem totalEntries_eq (es : List Entry) :
    totalEntries es = ((filesOf es).map WalkFile.Size).sum + ((subdirs es).map total).sum := by
  induction es with
  | nil => simp [totalEntries, subdirs, filesOf]
  | cons e es ih =>
      cases e <;> simp only [totalEntries, subdirs, filesOf, ih, List.map_cons, List.sum_cons]
      · rw [add_assoc]
      · rw [add_left_comm]

theorem boundEntries_eq (es : List Entry) : boundEntries es = ((subdirs es).map bound).sum := by
  induction es with
  | nil => rfl
  | cons e es ih => cases e <;> simp [boundEntries, subdirs, ih]

theorem fails_of_ownFailure {p : Dir} {e : Error} (h : OwnFailure p e) : fails p = true := by
  obtain ⟨l, r, es⟩ := p
  rcases h with h | ⟨⟨info, h1⟩, h2⟩
  · simp only [Dir.lstat] at h; subst h; simp [fails]
  · simp only [Dir.lstat, Dir.readErr] at h1 h2; subst h1; subst h2; simp [fails]

theorem fails_of_listed {p : Dir} {info : FileInfo} (h1 : p.lstat = .ok info)
    (h2 : p.readErr = none) : fails p = failsAny p.entries := by
  obtain ⟨l, r, es⟩ := p
  simp only [Dir.lstat, Dir.readErr] at h1 h2; subst h1; subst h2; simp [fails, Dir.entries]

theorem total_of_listed {p : Dir} {info : FileInfo} (h1 : p.lstat = .ok info) :
    total p = info.size + totalEntries p.entries := by
  obtain ⟨l, r, es⟩ := p
  simp only [Dir.lstat] at h1; subst h1; simp [total, Dir.entries]

mutual
theorem walkSimple_ok : ∀ p : Dir, fails p = false →
    ∃ d, walkSimple p = .ok d ∧ d.Size = total p
  | .mk (.error e) r es, h => by simp [fails] at h
  | .mk (.ok info) (some e) es, h => by simp [fails] at h
  | .mk (.ok info) none es, h => by
      simp only [fails] at h
      obtain ⟨d, hd, hs⟩ := walkSimpleRange_ok info es info.size [] [] h
      exact ⟨d, by simp [walkSimple, hd], by simp [hs, total]⟩
theorem walkSimpleRange_ok (top : FileInfo) : ∀ (es : List Entry) (size : Int64)
    (dirs : List WalkDir) (files : List WalkFile), failsAny es = false →
    ∃ d, walkSimpleRange top es size dirs files = .ok d ∧ d.Size = size + totalEntries es
  | [], size, dirs, files, _ => ⟨_, rfl, by simp [WalkDir.Size, totalEntries]⟩
  | .file info :: es, size, dirs, files, h => by
      simp only [failsAny] at h
      obtain ⟨d, hd, hs⟩ := walkSimpleRange_ok top es (size + info.size) dirs
        (files ++ [⟨info.name, info.size⟩]) h
      exact ⟨d, by simp [walkSimpleRange, hd], by rw [hs]; simp [totalEntries, add_assoc]⟩
  | .dir info t :: es, size, dirs, files, h => by
      simp only [failsAny, Bool.or_eq_false_iff] at h
      obtain ⟨c, hc, hcs⟩ := walkSimple_ok t h.1
      obtain ⟨d, hd, hs⟩ := walkSimpleRange_ok top es (size + c.Size) (dirs ++ [c]) files h.2
      exact ⟨d, by simp [walkSimpleRange, hc, hd], by rw [hs, hcs]; simp [totalEntries, add_assoc]⟩
end
mutual
theorem walkSimple_error : ∀ p : Dir, fails p = true → ∃ e, walkSimple p = .error e
  | .mk (.error e) r es, _ => ⟨e, by simp [walkSimple]⟩
  | .mk (.ok info) (some e) es, _ => ⟨e, by simp [walkSimple]⟩
  | .mk (.ok info) none es, h => by
      simp only [fails] at h
      obtain ⟨e, he⟩ := walkSimpleRange_error info es info.size [] [] h
      exact ⟨e, by simp [walkSimple, he]⟩
theorem walkSimpleRange_error (top : FileInfo) : ∀ (es : List Entry) (size : Int64)
    (dirs : List WalkDir) (files : List WalkFile), failsAny es = true →
    ∃ e, walkSimpleRange top es size dirs files = .error e
  | [], _, _, _, h => by simp [failsAny] at h
  | .file info :: es, size, dirs, files, h => by
      simp only [failsAny] at h
      obtain ⟨e, he⟩ := walkSimpleRange_error top es (size + info.size) dirs
        (files ++ [⟨info.name, info.size⟩]) h
      exact ⟨e, by simp [walkSimpleRange, he]⟩
  | .dir info t :: es, size, dirs, files, h => by
      simp only [failsAny, Bool.or_eq_true] at h
      cases hw : walkSimple t with
      | error e => exact ⟨e, by simp [walkSimpleRange, hw]⟩
      | ok c =>
          have ht : fails t = false := by
            cases hf : fails t with
            | false => rfl
            | true =>
                obtain ⟨e, he⟩ := walkSimple_error t hf
                rw [he] at hw; cases hw
          rw [ht] at h
          obtain ⟨e, he⟩ := walkSimpleRange_error top es (size + c.Size) (dirs ++ [c]) files
            (by simpa using h)
          exact ⟨e, by simp [walkSimpleRange, hw, he]⟩
end

/-- The `Size` of a `Summed` node, as an integer: the sum of the integers, wrapped once. -/
theorem Summed.size_val {d : WalkDir} {p : Dir} (h : Summed d p) :
    ∃ info, p.lstat = .ok info ∧
      d.Size.val = wrap64 (info.size.val + ((d.Files.map fun f => f.Size.val).sum) +
        ((d.Dirs.map fun c => c.Size.val).sum)) := by
  obtain ⟨n, s, ds, fs⟩ := d
  obtain ⟨⟨info, h1, -, -, h2⟩, -⟩ := h
  refine ⟨info, h1, ?_⟩
  show s.val = wrap64 (info.size.val + (fs.map fun f => f.Size.val).sum +
    (ds.map fun c => c.Size.val).sum)
  rw [h2, Int64.add_val, Int64.add_val, Int64.val_sum, Int64.val_sum, List.map_map,
    List.map_map]
  show wrap64 (wrap64 (info.size.val + wrap64 (fs.map fun f => f.Size.val).sum) +
    wrap64 (ds.map fun c => c.Size.val).sum) = _
  generalize (fs.map fun f => f.Size.val).sum = x
  generalize (ds.map fun c => c.Size.val).sum = y
  unfold wrap64
  omega

/-- Nodes that are `Summed` for directories taken from a list, each from a place of its own,
are `SummedAll` for the list. -/
theorem SummedAll.ofMatch {ds : List WalkDir} {ps : List Dir} (h : List.Forall₂ Summed ds ps) :
    ∀ {qs : List Dir}, ps.Subperm qs → SummedAll ds qs := by
  induction h with
  | nil => intro qs _; simp [SummedAll]
  | @cons d p ds ps hd _ ih =>
      intro qs hq
      obtain ⟨l₁, l₂, rfl⟩ := List.append_of_mem (hq.subset (List.mem_cons_self p ps))
      refine ⟨l₁, p, l₂, rfl, hd, ih ?_⟩
      exact (List.subperm_cons p).1 (hq.trans List.perm_middle.subperm)

/-- The nodes of a `SummedAll` list are `Summed` for directories taken from the list, each
from a place of its own. -/
theorem SummedAll.toMatch : ∀ {ds : List WalkDir} {qs : List Dir}, SummedAll ds qs →
    ∃ ps, List.Forall₂ Summed ds ps ∧ ps.Subperm qs
  | [], _, _ => ⟨[], List.Forall₂.nil, List.nil_subperm⟩
  | d :: ds, qs, h => by
      obtain ⟨l₁, q, l₂, rfl, hd, hr⟩ := h
      obtain ⟨ps, hps, hsub⟩ := SummedAll.toMatch hr
      exact ⟨q :: ps, List.Forall₂.cons hd hps,
        ((List.subperm_cons q).2 hsub).trans List.perm_middle.symm.subperm⟩

/-- Each node of a `SummedAll` list is `Summed` for a directory of the list, and there are no
more nodes than directories. -/
theorem SummedAll.mem {ds : List WalkDir} {qs : List Dir} (h : SummedAll ds qs) :
    (∀ c ∈ ds, ∃ q ∈ qs, Summed c q) ∧ ds.length ≤ qs.length := by
  obtain ⟨ps, hps, hsub⟩ := h.toMatch
  refine ⟨fun c hc => ?_, hps.length_eq ▸ hsub.length_le⟩
  have hex : ∃ q ∈ ps, Summed c q := by
    clear hsub h
    induction hps with
    | nil => simp at hc
    | @cons d p ds ps hd _ ih =>
        rcases List.mem_cons.1 hc with rfl | hc
        · exact ⟨p, List.mem_cons_self _ _, hd⟩
        · obtain ⟨q, hq, hcq⟩ := ih hc
          exact ⟨q, List.mem_cons_of_mem _ hq, hcq⟩
  obtain ⟨q, hq, hcq⟩ := hex
  exact ⟨q, hsub.subset hq, hcq⟩

mutual
/-- The node `walkSimple` returns is `Summed` for its directory, and its `Dirs` are, in the
order of the listing, what `walkSimple` returns for the sub-directories. -/
theorem walkSimple_built : ∀ (p : Dir) (d : WalkDir), walkSimple p = .ok d →
    Summed d p ∧ List.Forall₂ (fun c q => walkSimple q = .ok c) d.Dirs (subdirs p.entries)
  | .mk (.error e) r es, d, h => by simp [walkSimple] at h
  | .mk (.ok info) (some e) es, d, h => by simp [walkSimple] at h
  | .mk (.ok info) none es, d, h => by
      simp only [walkSimple] at h
      obtain ⟨h1, h2, h3, h4⟩ := walkSimpleRange_built info es info.size [] [] d [] h
        (by simp) List.Forall₂.nil
      obtain ⟨n, s, ds, fs⟩ := d
      simp only [List.nil_append] at h3 h4
      refine ⟨⟨⟨info, rfl, rfl, h2, h1⟩, h3, ?_⟩, h4.imp fun _ _ hcq => hcq.1⟩
      exact SummedAll.ofMatch (h4.imp fun _ _ hcq => hcq.2) (List.Subperm.refl _)
theorem walkSimpleRange_built (top : FileInfo) : ∀ (es : List Entry) (size : Int64)
    (dirs : List WalkDir) (files : List WalkFile) (d : WalkDir) (qs : List Dir),
    walkSimpleRange top es size dirs files = .ok d →
    size = top.size + (files.map WalkFile.Size).sum + (dirs.map WalkDir.Size).sum →
    List.Forall₂ (fun c q => walkSimple q = .ok c ∧ Summed c q) dirs qs →
    d.Size = top.size + (d.Files.map WalkFile.Size).sum + (d.Dirs.map WalkDir.Size).sum ∧
      d.Name = top.name ∧ d.Files = files ++ filesOf es ∧
      List.Forall₂ (fun c q => walkSimple q = .ok c ∧ Summed c q) d.Dirs (qs ++ subdirs es)
  | [], size, dirs, files, d, qs, h, hs, hd => by
      simp only [walkSimpleRange, Except.ok.injEq] at h
      subst h
      exact ⟨hs, rfl, by simp [WalkDir.Files, filesOf], by simpa [WalkDir.Dirs, subdirs] using hd⟩
  | .file info :: es, size, dirs, files, d, qs, h, hs, hd => by
      simp only [walkSimpleRange] at h
      obtain ⟨h1, h2, h3, h4⟩ := walkSimpleRange_built top es _ _ _ d qs h (by
        rw [hs]; simp only [List.map_append, List.sum_append, List.map_cons, List.map_nil,
          List.sum_cons, List.sum_nil, add_zero]
        abel) hd
      exact ⟨h1, h2, by simpa [filesOf] using h3, by simpa [subdirs] using h4⟩
  | .dir info t :: es, size, dirs, files, d, qs, h, hs, hd => by
      simp only [walkSimpleRange] at h
      cases hw : walkSimple t with
      | error e => rw [hw] at h; simp at h
      | ok c =>
          rw [hw] at h
          simp only at h
          obtain ⟨h1, h2, h3, h4⟩ := walkSimpleRange_built top es _ _ _ d (qs ++ [t]) h (by
            rw [hs]; simp only [List.map_append, List.sum_append, List.map_cons, List.map_nil,
              List.sum_cons, List.sum_nil, add_zero]
            abel)
            (List.rel_append hd (List.Forall₂.cons ⟨hw, (walkSimple_built t c hw).1⟩
              List.Forall₂.nil))
          exact ⟨h1, h2, by simpa [filesOf] using h3, by simpa [subdirs] using h4⟩
end

theorem walkSimple_summed (p : Dir) (d : WalkDir) (h : walkSimple p = .ok d) : Summed d p :=
  (walkSimple_built p d h).1

/-- The relation `Summed`, spelled out with the relations of lists. -/
theorem summed_iff (d : WalkDir) (p : Dir) :
    Summed d p ↔ ∃ info, p.lstat = .ok info ∧ p.readErr = none ∧ d.Name = info.name ∧
      d.Files = filesOf p.entries ∧
      d.Size = info.size + (d.Files.map WalkFile.Size).sum + (d.Dirs.map WalkDir.Size).sum ∧
      ∃ ps, List.Forall₂ Summed d.Dirs ps ∧ ps.Subperm (subdirs p.entries) := by
  obtain ⟨n, s, ds, fs⟩ := d
  constructor
  · rintro ⟨⟨info, h1, h2, h3, h4⟩, h5, h6⟩
    exact ⟨info, h1, h2, h3, h5, h4, h6.toMatch⟩
  · rintro ⟨info, h1, h2, h3, h5, h4, ps, h6, h7⟩
    exact ⟨⟨info, h1, h2, h3, h4⟩, h5, SummedAll.ofMatch h6 h7⟩

/-! ## Consequences of the invariant -/

/-- The invariant of a call, by phase: before the loop of line 148, in it, after it. -/
theorem LocalAt.phase {pc : Pc} {f : Frame} {os : List Obs} (h : LocalAt pc f os) :
    (f.sent = [] ∧ f.dirs = []) ∨ (∃ pend, Gathering f os pend ∧ Unsent f) ∨ Ended f os := by
  cases pc
  case lstat => exact Or.inl ⟨h.2, h.1.dirs⟩
  case readDir => exact Or.inl ⟨h.2.1, h.1.dirs⟩
  case ownErr e => exact Or.inl ⟨h.2.1, h.1.dirs⟩
  case range rest => exact Or.inl ⟨Scanning.sent h, Scanning.dirs h⟩
  case select => exact Or.inr (Or.inl ⟨[], h.1, h.2⟩)
  case forward e => exact Or.inr (Or.inl ⟨[e], h.1, h.2⟩)
  case result => exact Or.inr (Or.inl ⟨[], h.1, h.2.1⟩)
  case deferred => exact Or.inr (Or.inr h)
  case returned => exact Or.inr (Or.inr h)

theorem Inv.ended {g : Goroutine} (h : Inv g) (hr : g.obs.returned = true) :
    Ended g.frame (g.kids.map Goroutine.obs) := by
  have hl := h.local
  simp only [Goroutine.obs, Pc.isReturned] at hr
  split at hr
  · rename_i hpc; rw [hpc] at hl; exact hl
  · cases hr

theorem Ended.sent_dirs {f : Frame} {os : List Obs} (h : Ended f os) :
    (∃ e, OwnFailure f.path e ∧ f.sent = [.err e]) ∨
      (Listed f ∧ dirsOf f.sent = [f.node] ∧ Gathering f os [] ∧ Closed f) := by
  rcases h with ⟨-, e, he, hs⟩ | ⟨hg, hc, hs⟩
  · exact Or.inl ⟨e, he, hs⟩
  · refine Or.inr ⟨hg.listed, ?_, hg, hc⟩
    rw [hs, dirsOf_append, dirsOf_map_err]; rfl

theorem Gathering.subWg_zero {f : Frame} {os : List Obs} {pend : List Error}
    (h : Gathering f os pend) (hc : Closed f) : f.subWg = 0 := by
  have hok := h.closerOk
  unfold CloserOk at hok
  unfold Closed at hc
  cases hcl : f.closer <;> rw [hcl] at hok <;> simp only at hok
  · rcases hc with hc | hc <;> simp [hok.1, hok.2] at hc
  · rcases hc with hc | hc <;> simp [hok.1, hok.2] at hc
  · rcases hc with hc | hc <;> simp [hok.2.1, hok.2.2] at hc
  · exact hok.1
  · exact hok.1

/-- Once a channel is closed, every spawned call has ended. -/
theorem Gathering.all_returned {f : Frame} {os : List Obs} {pend : List Error}
    (h : Gathering f os pend) (hc : Closed f) : ∀ o ∈ os, o.returned = true :=
  liveCount_eq_zero (h.subWg.symm.trans (h.subWg_zero hc))

theorem mem_sentDirs {os : List Obs} {c : WalkDir} :
    c ∈ sentDirs os ↔ ∃ o ∈ os, c ∈ dirsOf o.sent := by
  induction os with
  | nil => simp [sentDirs]
  | cons o os ih =>
      simp only [sentDirs, List.map_cons, List.sum_cons, Multiset.mem_add] at ih ⊢
      rw [ih]; simp

theorem mem_sentErrs {os : List Obs} {e : Error} :
    e ∈ sentErrs os ↔ ∃ o ∈ os, e ∈ errsOf o.sent := by
  induction os with
  | nil => simp [sentErrs]
  | cons o os ih =>
      simp only [sentErrs, List.map_cons, List.sum_cons, Multiset.mem_add] at ih ⊢
      rw [ih]; simp

theorem sum_size_sentDirs (os : List Obs) :
    (Multiset.map WalkDir.Size (sentDirs os)).sum =
      (os.map fun o => ((dirsOf o.sent).map WalkDir.Size).sum).sum := by
  induction os with
  | nil => simp [sentDirs]
  | cons o os ih =>
      simp only [sentDirs, List.map_cons, List.sum_cons, Multiset.map_add, Multiset.sum_add] at ih ⊢
      rw [ih]; simp

theorem Inv.dirs_le_one {g : Goroutine} (h : Inv g) : (dirsOf g.frame.sent).length ≤ 1 := by
  rcases h.local.phase with ⟨hs, -⟩ | ⟨pend, -, hu⟩ | he
  · rw [hs]; simp [dirsOf]
  · rw [hu]; simp
  · rcases he.sent_dirs with ⟨e, -, hs⟩ | ⟨-, hs, -, -⟩
    · rw [hs]; simp [dirsOf]
    · rw [hs]; simp


/-- What a list of calls handed over, as a list, with the directory of each call. -/
theorem sentDirs_match : ∀ (os : List Obs), (∀ o ∈ os, (dirsOf o.sent).length ≤ 1) →
    (∀ o ∈ os, ∀ d ∈ dirsOf o.sent, Summed d o.path) →
    ∃ ds ps, Multiset.ofList ds = sentDirs os ∧ List.Forall₂ Summed ds ps ∧
      ps.Sublist (os.map Obs.path)
  | [], _, _ => ⟨[], [], by simp [sentDirs], List.Forall₂.nil, List.Sublist.refl _⟩
  | o :: os, h1, h2 => by
      obtain ⟨ds, ps, hds, hf, hsub⟩ := sentDirs_match os
        (fun o' ho' => h1 o' (List.mem_cons_of_mem _ ho'))
        (fun o' ho' => h2 o' (List.mem_cons_of_mem _ ho'))
      have h1o := h1 o (List.mem_cons_self _ _)
      have h2o := h2 o (List.mem_cons_self _ _)
      cases hd : dirsOf o.sent with
      | nil =>
          refine ⟨ds, ps, ?_, hf, ?_⟩
          · simp only [sentDirs, List.map_cons, List.sum_cons, hd] at hds ⊢
            rw [← hds]; simp
          · simpa using hsub.cons o.path
      | cons d rest =>
          rw [hd] at h1o h2o
          have hrest : rest = [] := by
            cases rest with
            | nil => rfl
            | cons _ _ => simp at h1o
          subst hrest
          refine ⟨d :: ds, o.path :: ps, ?_, List.Forall₂.cons (h2o d (by simp)) hf, ?_⟩
          · simp only [sentDirs, List.map_cons, List.sum_cons, hd] at hds ⊢
            rw [← hds]; rfl
          · simpa using hsub.cons₂ o.path

/-- Every `WalkDir` a call hands over is `Summed` for the directory the call walks. -/
theorem Inv.summed {g : Goroutine} (h : Inv g) :
    ∀ d ∈ dirsOf g.frame.sent, Summed d g.frame.path := by
  induction h with
  | mk f kids hl hk ih =>
      simp only [Goroutine.frame]
      intro d hd
      rcases hl.phase with ⟨hs, -⟩ | ⟨pend, -, hu⟩ | he
      · rw [hs] at hd; simp [dirsOf] at hd
      · rw [hu] at hd; simp at hd
      · rcases he.sent_dirs with ⟨e, -, hs⟩ | ⟨hli, hs, hg, -⟩
        · rw [hs] at hd; simp [dirsOf] at hd
        · rw [hs] at hd
          rw [List.mem_singleton.1 hd]
          obtain ⟨ds, ps, hds, hf, hsub⟩ := sentDirs_match (kids.map Goroutine.obs)
            (fun o ho => by
              obtain ⟨k, hk', rfl⟩ := List.mem_map.1 ho
              exact (hk k hk').dirs_le_one)
            (fun o ho => by
              obtain ⟨k, hk', rfl⟩ := List.mem_map.1 ho
              exact ih k hk')
          have hperm : f.dirs.Perm ds := Multiset.coe_eq_coe.1 (hg.dirs.trans hds.symm)
          obtain ⟨ps', hf', hp'⟩ := List.perm_comp_forall₂ hperm hf
          refine ⟨⟨f.info, hli.1, hli.2, rfl, hg.size⟩, hg.files, ?_⟩
          rw [← hg.kidsOf]
          exact SummedAll.ofMatch hf' (hp'.subperm.trans hsub.subperm)

/-- The `Dirs` of the `WalkDir` a call hands over were handed over by its children, which are
the calls for the sub-directories of its directory, in the order of the listing. -/
theorem Inv.dirs_of_kids {g : Goroutine} (h : Inv g) {d : WalkDir}
    (hd : d ∈ dirsOf g.frame.sent) :
    g.kids.map (fun k => k.frame.path) = subdirs g.frame.path.entries ∧
      ∀ n ∈ d.Dirs, ∃ k ∈ g.kids, n ∈ dirsOf k.frame.sent ∧ Summed n k.frame.path := by
  rcases h.local.phase with ⟨hs, -⟩ | ⟨pend, -, hu⟩ | he
  · rw [hs] at hd; simp [dirsOf] at hd
  · rw [hu] at hd; simp at hd
  · rcases he.sent_dirs with ⟨e, -, hs⟩ | ⟨-, hs, hg, -⟩
    · rw [hs] at hd; simp [dirsOf] at hd
    · rw [hs] at hd
      rw [List.mem_singleton.1 hd]
      refine ⟨?_, fun n hn => ?_⟩
      · rw [← hg.kidsOf, List.map_map]; rfl
      · have hn' : n ∈ sentDirs (g.kids.map Goroutine.obs) := by
          rw [← hg.dirs]; exact hn
        obtain ⟨o, ho, hno⟩ := mem_sentDirs.1 hn'
        obtain ⟨k, hk, rfl⟩ := List.mem_map.1 ho
        exact ⟨k, hk, hno, (h.kids k hk).summed n hno⟩

theorem Listed.not_ownFailure {f : Frame} (h : Listed f) (e : Error) : ¬ OwnFailure f.path e := by
  rintro (h' | ⟨-, h'⟩)
  · rw [h.1] at h'; cases h'
  · rw [h.2] at h'; cases h'

theorem Listed.fails {f : Frame} (h : Listed f) :
    fails f.path = true ↔ ∃ t ∈ subdirs f.path.entries, fails t = true := by
  rw [fails_of_listed h.1 h.2, failsAny_iff]

theorem Listed.total {f : Frame} (h : Listed f) :
    total f.path = f.info.size + ((filesOf f.path.entries).map WalkFile.Size).sum +
      ((subdirs f.path.entries).map FolderSizer.total).sum := by
  rw [total_of_listed h.1, totalEntries_eq, add_assoc]

theorem sum_map_congr {α M : Type} [AddCommMonoid M] {f g : α → M} :
    ∀ {l : List α}, (∀ x ∈ l, f x = g x) → (l.map f).sum = (l.map g).sum
  | [], _ => rfl
  | x :: l, h => by
      simp only [List.map_cons, List.sum_cons]
      rw [h x (List.mem_cons_self _ _), sum_map_congr fun y hy => h y (List.mem_cons_of_mem _ hy)]

/-- In a tree in which nothing fails, a call hands over no error, and the `Size` of the
`WalkDir` it hands over is the recursive size of its directory. -/
theorem Inv.size_eq_total {g : Goroutine} (h : Inv g) : fails g.frame.path = false →
    errsOf g.frame.sent = [] ∧ ∀ d ∈ dirsOf g.frame.sent, d.Size = total g.frame.path := by
  induction h with
  | mk f kids hl hk ih =>
      simp only [Goroutine.frame]
      intro hf
      have hkids : ∀ pend, Gathering f (kids.map Goroutine.obs) pend →
          ∀ k ∈ kids, fails k.frame.path = false := by
        intro pend hg k hk'
        cases hfk : fails k.frame.path with
        | false => rfl
        | true =>
            have : fails f.path = true := hg.listed.fails.2 ⟨k.frame.path, by
              rw [← hg.kidsOf]; exact List.mem_map.2 ⟨k.obs, List.mem_map_of_mem _ hk', rfl⟩, hfk⟩
            rw [hf] at this; cases this
      have herr : ∀ pend, Gathering f (kids.map Goroutine.obs) pend → errsOf f.sent = [] := by
        intro pend hg
        have hz : sentErrs (kids.map Goroutine.obs) = 0 := by
          apply Multiset.eq_zero_of_forall_not_mem
          intro e he
          obtain ⟨o, ho, heo⟩ := mem_sentErrs.1 he
          obtain ⟨k, hk', rfl⟩ := List.mem_map.1 ho
          have := (ih k hk' (hkids pend hg k hk')).1
          simp only [Goroutine.obs] at heo
          rw [this] at heo; cases heo
        have := hg.errs
        rw [hz] at this
        have := (Multiset.coe_eq_zero _).1 this
        exact (List.append_eq_nil.1 this).1
      rcases hl.phase with ⟨hs, -⟩ | ⟨pend, hg, hu⟩ | he
      · rw [hs]; simp [errsOf, dirsOf]
      · refine ⟨herr pend hg, ?_⟩
        rw [hu]; simp
      · rcases he.sent_dirs with ⟨e, hown, -⟩ | ⟨hli, hs, hg, hc⟩
        · rw [fails_of_ownFailure hown] at hf; cases hf
        · refine ⟨herr [] hg, ?_⟩
          intro d hd
          rw [hs] at hd
          rw [List.mem_singleton.1 hd, hli.total, ← hg.files, ← hg.kidsOf]
          show f.size = _
          rw [hg.size]
          congr 1
          have h1 : (f.dirs.map WalkDir.Size).sum =
              (Multiset.map WalkDir.Size (Multiset.ofList f.dirs)).sum := by simp
          rw [h1, hg.dirs, sum_size_sentDirs, List.map_map, List.map_map, List.map_map]
          apply sum_map_congr
          intro k hk'
          have hret := hg.all_returned hc k.obs (List.mem_map_of_mem _ hk')
          have hfk := hkids [] hg k hk'
          simp only [Function.comp]
          rcases ((hk k hk').ended hret).sent_dirs with ⟨e, hown, -⟩ | ⟨-, hsk, -, -⟩
          · rw [fails_of_ownFailure hown] at hfk; cases hfk
          · simp only [Goroutine.obs]
            rw [hsk]
            have := (ih k hk' hfk).2 k.frame.node (by rw [hsk]; simp)
            simp [this]
/-- In a tree in which something fails, a call that has left its loop or has returned has
handed over an error. -/
theorem Inv.errs_of_fails {g : Goroutine} (h : Inv g) : fails g.frame.path = true →
    Ended g.frame (g.kids.map Goroutine.obs) → errsOf g.frame.sent ≠ [] := by
  induction h with
  | mk f kids hl hk ih =>
      simp only [Goroutine.frame, Goroutine.kids]
      intro hf he
      rcases he.sent_dirs with ⟨e, -, hs⟩ | ⟨hli, -, hg, hc⟩
      · rw [hs]; simp [errsOf]
      · obtain ⟨t, ht, hft⟩ := hli.fails.1 hf
        rw [← hg.kidsOf] at ht
        obtain ⟨o, ho, rfl⟩ := List.mem_map.1 ht
        obtain ⟨k, hk', rfl⟩ := List.mem_map.1 ho
        have hret := hg.all_returned hc k.obs ho
        have hne := ih k hk' hft ((hk k hk').ended hret)
        obtain ⟨e, hek⟩ := List.exists_mem_of_ne_nil _ hne
        have hmem : e ∈ sentErrs (kids.map Goroutine.obs) := mem_sentErrs.2 ⟨k.obs, ho, hek⟩
        rw [← hg.errs] at hmem
        intro hnil
        rw [hnil] at hmem
        simp at hmem

/-- In a tree in which something fails, the first value a call hands over is an error. -/
theorem Inv.head_err {g : Goroutine} (h : Inv g) (hf : fails g.frame.path = true) (m : Msg)
    (hm : g.frame.sent.head? = some m) : ∃ e, m = .err e := by
  rcases h.local.phase with ⟨hs, -⟩ | ⟨pend, -, hu⟩ | he
  · rw [hs] at hm; cases hm
  · rw [eq_map_err_of_dirsOf_nil _ hu] at hm
    cases h' : errsOf g.frame.sent with
    | nil => rw [h'] at hm; cases hm
    | cons e es => rw [h'] at hm; simp at hm; exact ⟨e, hm.symm⟩
  · have hne := h.errs_of_fails hf he
    rcases he with ⟨-, e, -, hs⟩ | ⟨-, -, hs⟩
    · rw [hs] at hm; simp at hm; exact ⟨e, hm.symm⟩
    · rw [hs] at hm
      cases h' : errsOf g.frame.sent with
      | nil => exact absurd h' hne
      | cons e es => rw [h'] at hm; simp at hm; exact ⟨e, hm.symm⟩

/-- A call that has returned has handed over a value. -/
theorem Ended.sent_ne_nil {f : Frame} {os : List Obs} (h : Ended f os) : f.sent ≠ [] := by
  rcases h with ⟨-, e, -, hs⟩ | ⟨-, -, hs⟩
  · rw [hs]; simp
  · rw [hs]; simp

/-- In a tree in which nothing fails, a call hands over nothing but its `WalkDir`. -/
theorem Inv.sent_of_ok {g : Goroutine} (h : Inv g) (hf : fails g.frame.path = false)
    (hne : g.frame.sent ≠ []) : g.frame.sent = [.dir g.frame.node] := by
  have herr := (h.size_eq_total hf).1
  rcases h.local.phase with ⟨hs, -⟩ | ⟨pend, -, hu⟩ | he
  · exact absurd hs hne
  · rw [eq_map_err_of_dirsOf_nil _ hu, herr] at hne; simp at hne
  · rcases he with ⟨-, e, hown, -⟩ | ⟨-, -, hs⟩
    · rw [fails_of_ownFailure hown] at hf; cases hf
    · rw [herr] at hs; exact hs
/-! ## No deadlock -/

theorem allDoneList_iff (ks : List Goroutine) :
    allDoneList ks = true ↔ ∀ k ∈ ks, k.allDone = true := by
  induction ks with
  | nil => simp [allDoneList]
  | cons k ks ih => simp [allDoneList, ih]

theorem Gathering.open_of_live {f : Frame} {os : List Obs} {pend : List Error}
    (h : Gathering f os pend) (hw : f.subWg ≠ 0) :
    f.subDirClosed = false ∧ f.subErrClosed = false := by
  have hok := h.closerOk
  unfold CloserOk at hok
  cases hcl : f.closer <;> rw [hcl] at hok <;> simp only at hok
  · exact hok
  · exact hok
  · exact absurd hok.1 hw
  · exact absurd hok.1 hw
  · exact absurd hok.1 hw

theorem kid_progress {f : Frame} {kids : List Goroutine} {i : Nat} {k : Goroutine}
    (hki : kids[i]? = some k) (hw : f.subWg = liveCount (kids.map Goroutine.obs))
    (hstep : ∃ a r, walkStep a k = some r) : ∃ a r, walkStep a (.mk f kids) = some r := by
  obtain ⟨a, ⟨k', b⟩, hst⟩ := hstep
  cases b with
  | false =>
      refine ⟨.kid i a, ?_⟩
      simp only [walkStep, hki, hst]
      exact ⟨_, rfl⟩
  | true =>
      have hr := ((walkStep_obs hst).2.2.2 rfl).1
      have hne : f.subWg ≠ 0 := by
        rw [hw]
        exact liveCount_pos (List.mem_map_of_mem _ (List.getElem?_mem hki)) hr
      refine ⟨.kid i a, ?_⟩
      simp only [walkStep, hki, hst, if_neg hne]
      exact ⟨_, rfl⟩

theorem recv_progress {f : Frame} {kids : List Goroutine} {i : Nat} {k : Goroutine} {m : Msg}
    (hpc : f.pc = .select) (hg : Gathering f (kids.map Goroutine.obs) [])
    (hki : kids[i]? = some k) (hm : offer k = some m) :
    ∃ a r, walkStep a (.mk f kids) = some r := by
  have hne : f.subWg ≠ 0 := by
    rw [hg.subWg]
    exact liveCount_pos (List.mem_map_of_mem _ (List.getElem?_mem hki)) (offer_not_returned hm)
  obtain ⟨h1, h2⟩ := hg.open_of_live hne
  cases m with
  | dir d =>
      refine ⟨.recv i, ?_⟩
      simp only [walkStep, hki, hm, recvStep, hpc, h1]
      exact ⟨_, rfl⟩
  | err e =>
      refine ⟨.recv i, ?_⟩
      simp only [walkStep, hki, hm, recvStep, hpc, h2]
      exact ⟨_, rfl⟩

theorem closer_progress {f : Frame} {kids : List Goroutine} (hw : f.subWg = 0) (hc : f.closer.isDone = false) :
    ∃ a r, walkStep a (.mk f kids) = some r := by
  cases hcl : f.closer <;> rw [hcl] at hc <;> simp [Closer.isDone] at hc
  · refine ⟨.closer, ?_⟩
    simp only [walkStep, closerStep, hcl, hw, if_true]
    exact ⟨_, rfl⟩
  · refine ⟨.closer, ?_⟩
    simp only [walkStep, closerStep, hcl]
    exact ⟨_, rfl⟩
  · refine ⟨.closer, ?_⟩
    simp only [walkStep, closerStep, hcl]
    exact ⟨_, rfl⟩

theorem allDone_returned {g : Goroutine} (h : g.allDone = true) : g.obs.returned = true := by
  obtain ⟨f, kids⟩ := g
  simp only [Goroutine.allDone, Bool.and_eq_true] at h
  exact h.1.1

theorem liveCount_of_allDone {kids : List Goroutine} (h : ∀ k ∈ kids, k.allDone = true) :
    liveCount (kids.map Goroutine.obs) = 0 := by
  induction kids with
  | nil => rfl
  | cons k ks ih =>
      simp only [liveCount, List.map_cons, List.sum_cons]
      rw [allDone_returned (h k (List.mem_cons_self _ _))]
      have := ih fun x hx => h x (List.mem_cons_of_mem _ hx)
      simp only [liveCount] at this
      rw [this]; rfl

/-- A tree of calls that has not ended altogether can take a step, or is handing over a value
to its caller. -/
theorem Inv.progress {g : Goroutine} (h : Inv g) :
    g.allDone = true ∨ (∃ a r, walkStep a g = some r) ∨ (offer g).isSome = true := by
  induction h with
  | mk f kids hl hk ih =>
      have hkidsDone : (∀ k ∈ kids, k.allDone = true) ∨ ∃ (i : Nat) (k : Goroutine), kids[i]? = some k ∧
          ((∃ a r, walkStep a k = some r) ∨ ∃ m, offer k = some m) := by
        by_cases hall : ∀ k ∈ kids, k.allDone = true
        · exact Or.inl hall
        · simp only [not_forall] at hall
          obtain ⟨k, hk', hnd⟩ := hall
          obtain ⟨i, hi⟩ := List.getElem?_of_mem hk'
          rcases ih k hk' with h1 | h2 | h3
          · exact absurd h1 hnd
          · exact Or.inr ⟨i, k, hi, Or.inl h2⟩
          · exact Or.inr ⟨i, k, hi, Or.inr (Option.isSome_iff_exists.1 h3)⟩
      cases hpc : f.pc <;> rw [hpc] at hl
      case lstat =>
        refine Or.inr (Or.inl ⟨.run, ?_⟩)
        simp only [walkStep, runStep, hpc]
        cases f.path.lstat <;> exact ⟨_, rfl⟩
      case readDir =>
        refine Or.inr (Or.inl ⟨.run, ?_⟩)
        simp only [walkStep, runStep, hpc]
        cases f.path.readErr <;> exact ⟨_, rfl⟩
      case ownErr e => exact Or.inr (Or.inr (by simp [offer, Goroutine.frame, hpc]))
      case range rest =>
        refine Or.inr (Or.inl ⟨.run, ?_⟩)
        simp only [walkStep, runStep, hpc]
        rcases rest with _ | ⟨e, rest⟩
        · exact ⟨_, rfl⟩
        · cases e <;> exact ⟨_, rfl⟩
      case select =>
        obtain ⟨hg, -⟩ := hl
        rcases hkidsDone with hall | ⟨i, k, hi, hs | ⟨m, hm⟩⟩
        · have hw : f.subWg = 0 := by
            rw [hg.subWg]
            exact liveCount_of_allDone hall
          by_cases hc : f.closer.isDone = true
          · have hok := hg.closerOk
            have hst := hg.started
            unfold CloserOk at hok
            cases hcl : f.closer <;> rw [hcl] at hok hc <;> simp [Closer.isDone] at hc
            · exact absurd hcl hst
            · refine Or.inr (Or.inl ⟨.dirClosed, ?_⟩)
              simp only [walkStep, hpc, hok.2.1, if_true]
              exact ⟨_, rfl⟩
          · exact Or.inr (Or.inl (closer_progress hw (by simpa using hc)))
        · exact Or.inr (Or.inl (kid_progress hi hg.subWg hs))
        · exact Or.inr (Or.inl (recv_progress hpc hg hi hm))
      case forward e => exact Or.inr (Or.inr (by simp [offer, Goroutine.frame, hpc]))
      case result => exact Or.inr (Or.inr (by simp [offer, Goroutine.frame, hpc]))
      case deferred =>
        refine Or.inr (Or.inl ⟨.run, ?_⟩)
        simp only [walkStep, runStep, hpc]
        exact ⟨_, rfl⟩
      case returned =>
        rcases hl with ⟨hi, -⟩ | ⟨hg, hc, -⟩
        · refine Or.inl ?_
          have := hi.kids
          simp only [List.map_eq_nil_iff] at this
          subst this
          simp [Goroutine.allDone, hpc, Pc.isReturned, hi.closer, Closer.isDone, allDoneList]
        · by_cases hcd : f.closer.isDone = true
          · rcases hkidsDone with hall | ⟨i, k, hi, hs | ⟨m, hm⟩⟩
            · refine Or.inl ?_
              simp [Goroutine.allDone, hpc, Pc.isReturned, hcd, (allDoneList_iff kids).2 hall]
            · exact Or.inr (Or.inl (kid_progress hi hg.subWg hs))
            · have h1 := hg.all_returned hc k.obs (List.mem_map_of_mem _ (List.getElem?_mem hi))
              rw [offer_not_returned hm] at h1; cases h1
          · exact Or.inr (Or.inl (closer_progress (hg.subWg_zero hc) (by simpa using hcd)))
theorem SysInv.stuck {path : Dir} {c : Caller} {s : Sys} (h : SysInv path s)
    (hst : ∀ a, sysStep c a s = none) :
    s.root.allDone = true ∨ (c.receives s.got = false ∧ (offer s.root).isSome = true) := by
  rcases h.root.progress with h1 | ⟨a, ⟨r, b⟩, hw⟩ | h3
  · exact Or.inl h1
  · have := hst (.walk a)
    cases b with
    | false => simp [sysStep, hw] at this
    | true =>
        have hr := ((walkStep_obs hw).2.2.2 rfl).1
        simp only [Goroutine.obs] at hr
        have hwg : s.wg ≠ 0 := by rw [h.wg, hr]; simp
        simp [sysStep, hw, hwg] at this
  · cases hrc : c.receives s.got with
    | false => exact Or.inr ⟨rfl, h3⟩
    | true =>
        have := hst .recv
        obtain ⟨m, hm⟩ := Option.isSome_iff_exists.1 h3
        simp [sysStep, hrc, hm] at this

/-- When no step is left, the caller has received a value. -/
theorem SysInv.got_of_stuck {path : Dir} {c : Caller} {s : Sys} (h : SysInv path s)
    (hst : ∀ a, sysStep c a s = none) : s.got ≠ [] := by
  rcases h.stuck hst with h1 | ⟨h2, -⟩
  · rw [h.got]
    exact (h.root.ended (allDone_returned h1)).sent_ne_nil
  · cases c with
    | once => intro hn; rw [hn] at h2; cases h2
    | always => cases h2

theorem got_size_eq_total {path : Dir} {c : Caller} {sched : List SysAct} {s : Sys}
    (hok : fails path = false) (hrun : sysRun c sched (start path) = some s) :
    ∀ d ∈ dirsOf s.got, d.Size = total path := by
  have h := SysInv.reach hrun
  intro d hd
  rw [h.got] at hd
  have := (h.root.size_eq_total (by rw [h.path]; exact hok)).2 d hd
  rw [this, h.path]

theorem got_of_stuck_ok {path : Dir} {c : Caller} {sched : List SysAct} {s : Sys}
    (hok : fails path = false) (hrun : sysRun c sched (start path) = some s)
    (hst : ∀ a, sysStep c a s = none) : ∃ d, s.got = [.dir d] ∧ d.Size = total path := by
  have h := SysInv.reach hrun
  have hne := h.got_of_stuck hst
  have hs := h.root.sent_of_ok (by rw [h.path]; exact hok) (by rw [← h.got]; exact hne)
  refine ⟨_, h.got.trans hs, ?_⟩
  exact got_size_eq_total hok hrun _ (by rw [h.got, hs]; simp [dirsOf])

theorem Gathering.node_of_empty {f : Frame} {os : List Obs} {pend : List Error}
    (h : Gathering f os pend) (he : f.path.entries = []) :
    f.node = .mk f.info.name f.info.size [] [] := by
  have hos : os = [] := by
    have := h.kidsOf
    rw [he] at this
    simpa [subdirs] using this
  have hd : f.dirs = [] := by
    have := h.dirs
    rw [hos] at this
    exact (Multiset.coe_eq_zero _).1 this
  have hfl : f.files = [] := by rw [h.files, he]; rfl
  have hs : f.size = f.info.size := by rw [h.size, hd, hfl]; simp
  unfold Frame.node
  rw [hd, hfl, hs]

/-! ## `Pretty` -/

set_option maxRecDepth 100000 in
theorem testTree_pretty : testTree.Pretty =
    "|- aaa (0)\n    |- bbb (0)\n    |- ccc (0)\n    |- ddd (0)\n        |- fff (0)\n        |- ggg (0)\n    |- eee (0)\n        |- hhh (0)\n        |- iii (0)\n        |- jjj (0)\n" := by
  decide

theorem writeIndent_eq (n : Nat) (buf : String) :
    writeIndent n buf = buf ++ String.mk (List.replicate n ' ') := by
  induction n generalizing buf with
  | zero => simp [writeIndent]
  | succ n ih =>
      simp only [writeIndent, write, ih, String.append_assoc]
      congr 1

theorem specLine_succ (k : Nat) (name : String) (size : Int64) :
    String.mk (List.replicate (4 * k + indentWidth) ' ') ++ entryFormat name size =
      specLine (k + 1) name size := by
  simp only [specLine, entryFormat, indentWidth, Nat.mul_succ]

theorem prettyFiles_eq (k : Nat) (files : List WalkFile) (buf : String) :
    prettyFiles files (4 * k) buf = buf ++ specFiles k files := by
  induction files generalizing buf with
  | nil => simp [prettyFiles, specFiles]
  | cons f fs ih =>
      simp only [prettyFiles, specFiles, write, writeIndent_eq, ih, String.append_assoc,
        specLine_succ]

mutual
theorem pretty_eq : ∀ (d : WalkDir) (k : Nat) (buf : String),
    d.pretty (4 * k) buf = buf ++ specRender k d
  | .mk name size dirs files, k, buf => by
      have h : specLine k name size =
          String.mk (List.replicate (4 * k) ' ') ++ entryFormat name size := rfl
      simp only [WalkDir.pretty, specRender, write, writeIndent_eq, prettyFiles_eq,
        prettyDirs_eq dirs k, String.append_assoc, h]
theorem prettyDirs_eq : ∀ (ds : List WalkDir) (k : Nat) (buf : String),
    prettyDirs ds (4 * k) buf = buf ++ specRenderAll (k + 1) ds
  | [], k, buf => by simp [prettyDirs, specRenderAll]
  | d :: ds, k, buf => by
      have h : 4 * k + indentWidth = 4 * (k + 1) := by simp [indentWidth, Nat.mul_succ]
      simp only [prettyDirs, specRenderAll, h, pretty_eq d (k + 1), prettyDirs_eq ds k,
        String.append_assoc]
end

/-! ## What a call has received when it publishes -/

theorem allDone_within {g r : Goroutine} (hw : Within g r) : r.allDone = true → g.allDone = true := by
  induction hw with
  | self => exact id
  | @kid k r hk _ ih =>
      intro hr
      obtain ⟨f, kids⟩ := r
      simp only [Goroutine.allDone, Bool.and_eq_true] at hr
      exact ih ((allDoneList_iff kids).1 hr.2 k hk)

/-- A call that is handing over its `WalkDir`, or has done so, is past its loop: one of its
channels is closed and what it gathered is complete. -/
theorem Inv.published {g : Goroutine} (h : Inv g) {d : WalkDir}
    (hd : offer g = some (.dir d) ∨ Msg.dir d ∈ g.frame.sent) :
    d = g.frame.node ∧ Closed g.frame ∧ Gathering g.frame (g.kids.map Goroutine.obs) [] := by
  have hmem : ∀ {ms : List Msg}, Msg.dir d ∈ ms → d ∈ dirsOf ms := by
    intro ms
    induction ms with
    | nil => simp
    | cons m ms ih =>
        cases m with
        | err e => simpa [dirsOf] using ih
        | dir d' =>
            simp only [List.mem_cons, Msg.dir.injEq, dirsOf]
            exact fun h' => h'.imp id ih
  rcases hd with hd | hd
  · have hl := h.local
    unfold offer at hd
    split at hd
    · simp at hd
    · simp at hd
    · rename_i hpc
      rw [hpc] at hl
      simp only [Option.some.injEq, Msg.dir.injEq] at hd
      exact ⟨hd.symm, hl.2.2, hl.1⟩
    · simp at hd
  · have hd := hmem hd
    rcases h.local.phase with ⟨hs, -⟩ | ⟨pend, -, hu⟩ | he
    · rw [hs] at hd; simp [dirsOf] at hd
    · rw [hu] at hd; simp at hd
    · rcases he.sent_dirs with ⟨e, -, hs⟩ | ⟨-, hs, hg, hc⟩
      · rw [hs] at hd; simp [dirsOf] at hd
      · rw [hs] at hd
        exact ⟨List.mem_singleton.1 hd, hc, hg⟩

/-! ## Errors -/

theorem OwnOk.excludes {p : Dir} (h : OwnOk p) (e : Error) : ¬ OwnFailure p e := by
  obtain ⟨⟨info, h1⟩, h2⟩ := h
  rintro (h' | ⟨-, h'⟩)
  · rw [h1] at h'; cases h'
  · rw [h2] at h'; cases h'

theorem ownFailure_unique {p : Dir} {e e' : Error} (h : OwnFailure p e) (h' : OwnFailure p e') :
    e' = e := by
  rcases h with h | ⟨⟨i, h1⟩, h2⟩ <;> rcases h' with h' | ⟨⟨i', h1'⟩, h2'⟩
  · rw [h] at h'; cases h'; rfl
  · rw [h] at h1'; cases h1'
  · rw [h1] at h'; cases h'
  · rw [h2] at h2'; cases h2'; rfl

/-! ## Termination -/

theorem workList_eq (ks : List Goroutine) :
    workList ks = (ks.map fun k => k.frame.sent.length + k.work).sum := by
  induction ks with
  | nil => rfl
  | cons k ks ih => simp [workList, ih]

theorem work_mk (f : Frame) (kids : List Goroutine) :
    (Goroutine.mk f kids).work = f.pc.rank + f.closer.rank + f.files.length + kids.length +
      (kids.map fun k => k.frame.sent.length + k.work).sum := by
  simp [Goroutine.work, workList_eq]

theorem work_delivered {g : Goroutine} {m : Msg} (h : offer g = some m) :
    g.work ≤ (delivered g).work := by
  obtain ⟨f, kids⟩ := g
  unfold offer at h
  unfold delivered
  simp only [Goroutine.frame] at h ⊢
  split at h
  · rename_i e hpc
    simp only [hpc, offer, Goroutine.frame, Goroutine.kids, work_mk, Pc.rank]
    omega
  · rename_i e hpc
    simp only [hpc, offer, Goroutine.frame, Goroutine.kids, work_mk, Pc.rank]
    omega
  · rename_i hpc
    simp only [hpc, offer, Goroutine.frame, Goroutine.kids, work_mk, Pc.rank]
    omega
  · simp at h

theorem sum_set_lt {α : Type} (f : α → Nat) {l : List α} {i : Nat} {x y : α}
    (h : l[i]? = some x) (hlt : f x < f y) : (l.map f).sum < ((l.set i y).map f).sum := by
  have := sum_map_set f l i x y 0 (f y - f x) h (by omega)
  omega

/-- Every step increases the measure. -/
theorem work_lt : ∀ (a : Act) (g g' : Goroutine) (b : Bool),
    walkStep a g = some (g', b) → g.work < g'.work
  | .run, .mk f kids, g', b, h => by
      simp only [walkStep, runStep] at h
      split at h
      · rename_i hpc
        split at h <;> simp at h <;> obtain ⟨rfl, -⟩ := h <;> simp [work_mk, hpc, Pc.rank]
      · rename_i hpc
        split at h <;> simp at h <;> obtain ⟨rfl, -⟩ := h <;> simp [work_mk, hpc, Pc.rank]
      · rename_i hpc
        simp at h; obtain ⟨rfl, -⟩ := h
        simp [work_mk, hpc, Pc.rank]
      · rename_i hpc
        simp at h; obtain ⟨rfl, -⟩ := h
        simp [work_mk, hpc, Pc.rank]
        omega
      · rename_i hpc
        simp at h; obtain ⟨rfl, -⟩ := h
        have hc : f.closer.rank ≤ 4 := by cases f.closer <;> simp [Closer.rank]
        have hw : Closer.rank .wait = 1 := rfl
        simp only [work_mk, hpc, Pc.rank, hw]
        omega
      · rename_i hpc
        simp at h; obtain ⟨rfl, -⟩ := h
        simp [work_mk, hpc, Pc.rank]
      · simp at h
  | .recv i, .mk f kids, g', b, h => by
      simp only [walkStep] at h
      split at h; · simp at h
      rename_i k hki
      split at h; · simp at h
      rename_i m hm
      split at h; · simp at h
      rename_i f' hf
      simp at h; obtain ⟨rfl, -⟩ := h
      have hsum := sum_set_lt (fun k : Goroutine => k.frame.sent.length + k.work)
        (y := delivered k) hki (by
          have h1 := work_delivered hm
          have h2 := obs_delivered hm
          simp only [Goroutine.obs, Obs.mk.injEq] at h2
          show k.frame.sent.length + k.work <
            (delivered k).frame.sent.length + (delivered k).work
          rw [h2.2.1]
          simp only [List.length_append, List.length_singleton]
          omega)
      have hrank : f.pc.rank + f.closer.rank + f.files.length ≤
          f'.pc.rank + f'.closer.rank + f'.files.length := by
        unfold recvStep at hf
        split at hf
        · split at hf <;> simp at hf; subst hf; simp
        · rename_i hpc
          split at hf <;> simp at hf; subst hf; simp [hpc, Pc.rank]
        · simp at hf
      simp only [work_mk, List.length_set]
      omega
  | .dirClosed, .mk f kids, g', b, h => by
      simp only [walkStep] at h
      split at h
      · rename_i hpc
        split at h <;> simp at h
        obtain ⟨rfl, -⟩ := h
        simp [work_mk, hpc, Pc.rank]
      · simp at h
  | .errClosed, .mk f kids, g', b, h => by
      simp only [walkStep] at h
      split at h
      · rename_i hpc
        split at h <;> simp at h
        obtain ⟨rfl, -⟩ := h
        simp [work_mk, hpc, Pc.rank]
      · simp at h
  | .closer, .mk f kids, g', b, h => by
      simp only [walkStep] at h
      split at h; · simp at h
      rename_i f' hf
      simp at h; obtain ⟨rfl, -⟩ := h
      obtain ⟨-, -, e3, -, -, -, e7, -⟩ := closerStep_same hf
      have hc : f.closer.rank < f'.closer.rank := by
        unfold closerStep at hf
        split at hf
        · rename_i hcl
          split at hf <;> simp at hf; subst hf; simp [hcl, Closer.rank]
        · rename_i hcl; simp at hf; subst hf; simp [hcl, Closer.rank]
        · rename_i hcl; simp at hf; subst hf; simp [hcl, Closer.rank]
        · simp at hf
      simp only [work_mk, e3, e7]
      omega
  | .kid i a, .mk f kids, g', b, h => by
      simp only [walkStep] at h
      split at h; · simp at h
      rename_i k hki
      split at h
      · simp at h
      · rename_i k' hst
        simp at h; obtain ⟨rfl, -⟩ := h
        have hlt := work_lt a k k' false hst
        have hs := (walkStep_obs hst).2.1
        simp only [Goroutine.obs] at hs
        have hsum := sum_set_lt (fun k : Goroutine => k.frame.sent.length + k.work)
          (y := k') hki (by
            show k.frame.sent.length + k.work < k'.frame.sent.length + k'.work
            rw [hs]; omega)
        simp only [work_mk, List.length_set]
        omega
      · rename_i k' hst
        split at h <;> simp at h
        obtain ⟨rfl, -⟩ := h
        have hlt := work_lt a k k' true hst
        have hs := (walkStep_obs hst).2.1
        simp only [Goroutine.obs] at hs
        have hsum := sum_set_lt (fun k : Goroutine => k.frame.sent.length + k.work)
          (y := k') hki (by
            show k.frame.sent.length + k.work < k'.frame.sent.length + k'.work
            rw [hs]; omega)
        simp only [work_mk, List.length_set]
        omega
theorem bound_eq (p : Dir) :
    bound p = 15 + p.entries.length + 2 * ((subdirs p.entries).map bound).sum := by
  obtain ⟨l, r, es⟩ := p
  simp [bound, boundEntries_eq, Dir.entries]

theorem length_filesOf_subdirs (es : List Entry) :
    (filesOf es).length + (subdirs es).length = es.length := by
  induction es with
  | nil => rfl
  | cons e es ih => cases e <;> simp [filesOf, subdirs] <;> omega

theorem length_errsOf_dirsOf (ms : List Msg) :
    ms.length = (errsOf ms).length + (dirsOf ms).length := by
  induction ms with
  | nil => rfl
  | cons m ms ih => cases m <;> simp [errsOf, dirsOf] <;> omega

theorem card_sentErrs (os : List Obs) :
    Multiset.card (sentErrs os) = (os.map fun o => (errsOf o.sent).length).sum := by
  induction os with
  | nil => simp [sentErrs]
  | cons o os ih =>
      simp only [sentErrs, List.map_cons, List.sum_cons, Multiset.card_add] at ih ⊢
      rw [ih]; simp

theorem sum_map_le {α : Type} {f g : α → Nat} :
    ∀ {l : List α}, (∀ x ∈ l, f x ≤ g x) → (l.map f).sum ≤ (l.map g).sum
  | [], _ => Nat.le_refl _
  | x :: l, h => by
      simp only [List.map_cons, List.sum_cons]
      have h1 := h x (List.mem_cons_self _ _)
      have h2 := sum_map_le fun y hy => h y (List.mem_cons_of_mem _ hy)
      omega

theorem Pc.rank_le_ten (pc : Pc) : pc.rank ≤ 10 := by
  cases pc <;> simp [Pc.rank]

theorem Closer.rank_le_four (c : Closer) : c.rank ≤ 4 := by
  cases c <;> simp [Closer.rank]

theorem Gathering.counts {f : Frame} {os : List Obs} {pend : List Error}
    (h : Gathering f os pend) (hd : (dirsOf f.sent).length ≤ 1) :
    f.files.length + os.length = f.path.entries.length ∧
    ((os.map Obs.path).map bound).sum = ((subdirs f.path.entries).map bound).sum ∧
    f.sent.length ≤ 1 + (os.map fun o => o.sent.length).sum := by
  refine ⟨?_, by rw [h.kidsOf], ?_⟩
  · have := congrArg List.length h.kidsOf
    rw [List.length_map] at this
    rw [h.files, this]
    exact length_filesOf_subdirs _
  · have h1 := congrArg Multiset.card h.errs
    rw [card_sentErrs, Multiset.coe_card, List.length_append] at h1
    have h2 : (os.map fun o => (errsOf o.sent).length).sum ≤
        (os.map fun o => o.sent.length).sum :=
      sum_map_le fun o _ => by rw [length_errsOf_dirsOf o.sent]; omega
    rw [length_errsOf_dirsOf f.sent]
    omega

theorem Idle.idleCounts {f : Frame} {os : List Obs} (hi : Idle f os) (hs : f.sent.length ≤ 1) :
    f.files.length + os.length ≤ f.path.entries.length ∧
    ((os.map Obs.path).map bound).sum ≤ ((subdirs f.path.entries).map bound).sum ∧
    f.sent.length ≤ 1 + (os.map fun o => o.sent.length).sum := by
  rw [hi.kids, hi.files]
  simp only [List.length_nil, List.map_nil, List.sum_nil]
  omega

theorem Ended.endedCounts {f : Frame} {os : List Obs} (h : Ended f os) :
    f.files.length + os.length ≤ f.path.entries.length ∧
    ((os.map Obs.path).map bound).sum ≤ ((subdirs f.path.entries).map bound).sum ∧
    f.sent.length ≤ 1 + (os.map fun o => o.sent.length).sum := by
  rcases h with ⟨hi, e, -, hs⟩ | ⟨hg, hc, hs⟩
  · exact hi.idleCounts (by rw [hs]; simp)
  · have hd : (dirsOf f.sent).length ≤ 1 := by
      rw [hs, dirsOf_append, dirsOf_map_err]; simp [dirsOf]
    obtain ⟨h1, h2, h3⟩ := hg.counts hd
    exact ⟨h1.le, h2.le, h3⟩

theorem LocalAt.localCounts {pc : Pc} {f : Frame} {os : List Obs} (h : LocalAt pc f os) :
    f.files.length + os.length ≤ f.path.entries.length ∧
    ((os.map Obs.path).map bound).sum ≤ ((subdirs f.path.entries).map bound).sum ∧
    f.sent.length ≤ 1 + (os.map fun o => o.sent.length).sum := by
  cases pc
  case lstat => exact h.1.idleCounts (by rw [h.2]; simp)
  case readDir => exact h.1.idleCounts (by rw [h.2.1]; simp)
  case ownErr e => exact h.1.idleCounts (by rw [h.2.1]; simp)
  case range rest =>
    have h : Scanning f os rest := h
    obtain ⟨seen, h1, h2, h3, -⟩ := h.seen
    refine ⟨?_, ?_, by rw [h.sent]; simp⟩
    · have := congrArg List.length h2
      rw [List.length_map] at this
      rw [h3, this, h1, List.length_append, length_filesOf_subdirs]
      omega
    · rw [h2, h1, subdirs_append, List.map_append, List.sum_append]
      omega
  case select =>
    obtain ⟨h1, h2, h3⟩ := h.1.counts (by rw [h.2]; simp)
    exact ⟨h1.le, h2.le, h3⟩
  case forward e =>
    obtain ⟨h1, h2, h3⟩ := h.1.counts (by rw [h.2]; simp)
    exact ⟨h1.le, h2.le, h3⟩
  case result =>
    obtain ⟨h1, h2, h3⟩ := h.1.counts (by rw [h.2.1]; simp)
    exact ⟨h1.le, h2.le, h3⟩
  case deferred => exact Ended.endedCounts h
  case returned => exact Ended.endedCounts h

/-- The measure of a tree of calls, with the values its root has handed over, stays below the
bound of the directory the root walks. -/
theorem Inv.work_le {g : Goroutine} (h : Inv g) :
    g.work + g.frame.sent.length ≤ bound g.frame.path := by
  induction h with
  | mk f kids hl hk ih =>
      obtain ⟨h1, h2, h3⟩ := hl.localCounts
      have hW : (kids.map fun k => k.frame.sent.length + k.work).sum ≤
          (kids.map fun k => bound k.frame.path).sum :=
        sum_map_le fun k hk' => by have := ih k hk'; omega
      have hS : (kids.map fun k => k.frame.sent.length).sum ≤
          (kids.map fun k => k.frame.sent.length + k.work).sum :=
        sum_map_le fun k _ => by omega
      have hr := f.pc.rank_le_ten
      have hc := f.closer.rank_le_four
      simp only [List.map_map, List.length_map] at h1 h2 h3
      have h2 : (kids.map fun k => bound k.frame.path).sum ≤
          ((subdirs f.path.entries).map bound).sum := h2
      have h3 : f.sent.length ≤ 1 + (kids.map fun k => k.frame.sent.length).sum := h3
      show (Goroutine.mk f kids).work + f.sent.length ≤ bound f.path
      rw [work_mk, bound_eq]
      omega
theorem sysStep_work {c : Caller} {a : SysAct} {s s' : Sys} (h : sysStep c a s = some s') :
    s.work < s'.work := by
  cases a with
  | recv =>
      simp only [sysStep] at h
      split at h
      · split at h; · simp at h
        rename_i m hm
        simp at h; subst h
        have := work_delivered hm
        simp only [Sys.work, List.length_append, List.length_singleton]
        omega
      · simp at h
  | walk a =>
      simp only [sysStep] at h
      split at h
      · simp at h
      · rename_i r hst
        simp at h; subst h
        have := work_lt _ _ _ _ hst
        simp only [Sys.work]
        omega
      · rename_i r hst
        split at h <;> simp at h
        subst h
        have := work_lt _ _ _ _ hst
        simp only [Sys.work]
        omega

theorem sysRun_work {c : Caller} : ∀ (sched : List SysAct) {s s' : Sys},
    sysRun c sched s = some s' → sched.length + s.work ≤ s'.work
  | [], s, s', h => by simp [sysRun] at h; subst h; simp
  | a :: as, s, s', h => by
      simp only [sysRun] at h
      split at h
      · simp at h
      · rename_i s1 h1
        have := sysRun_work as h
        have := sysStep_work h1
        simp only [List.length_cons]
        omega

theorem SysInv.sys_work_le {path : Dir} {s : Sys} (h : SysInv path s) : s.work ≤ bound path := by
  have := h.root.work_le
  rw [h.path, ← h.got] at this
  exact this

theorem sysRun_append {c : Caller} : ∀ (xs ys : List SysAct) {s s' s'' : Sys},
    sysRun c xs s = some s' → sysRun c ys s' = some s'' → sysRun c (xs ++ ys) s = some s''
  | [], ys, s, s', s'', h1, h2 => by simp [sysRun] at h1; subst h1; exact h2
  | a :: as, ys, s, s', s'', h1, h2 => by
      simp only [sysRun, List.cons_append] at h1 ⊢
      split at h1
      · simp at h1
      · rename_i s1 hs1
        exact sysRun_append as ys h1 h2

/-- From every state a schedule reaches, some schedule leads on to a state in which no step
is left. -/
theorem SysInv.complete {path : Dir} {c : Caller} : ∀ (n : Nat) {s : Sys}, SysInv path s →
    bound path - s.work ≤ n →
    ∃ more s', sysRun c more s = some s' ∧ ∀ a, sysStep c a s' = none
  | n, s, h, hn => by
      by_cases hst : ∀ a, sysStep c a s = none
      · exact ⟨[], s, rfl, hst⟩
      · simp only [not_forall] at hst
        obtain ⟨a, ha⟩ := hst
        obtain ⟨s1, hs1⟩ := Option.ne_none_iff_exists'.1 ha
        have hlt := sysStep_work hs1
        have hle := (h.ofStep hs1).sys_work_le
        cases n with
        | zero => omega
        | succ n =>
            obtain ⟨more, s', hrun, hstuck⟩ :=
              SysInv.complete n (h.ofStep hs1) (by omega)
            refine ⟨a :: more, s', ?_, hstuck⟩
            simp only [sysRun, hs1]
            exact hrun

theorem LocalAt.closed_returned {pc : Pc} {f : Frame} {os : List Obs} (h : LocalAt pc f os)
    (hc : Closed f) : ∀ o ∈ os, o.returned = true := by
  have idle : Idle f os → ∀ o ∈ os, o.returned = true := by
    intro hi; rw [hi.kids]; simp
  cases pc
  case lstat => exact idle h.1
  case readDir => exact idle h.1
  case ownErr e => exact idle h.1
  case range rest =>
    have h : Scanning f os rest := h
    rcases hc with hc | hc
    · rw [h.dirOpen] at hc; cases hc
    · rw [h.errOpen] at hc; cases hc
  case select => exact h.1.all_returned hc
  case forward e => exact h.1.all_returned hc
  case result => exact h.1.all_returned hc
  case deferred =>
    rcases h with ⟨hi, -⟩ | ⟨hg, -, -⟩
    · exact idle hi
    · exact hg.all_returned hc
  case returned =>
    rcases h with ⟨hi, -⟩ | ⟨hg, -, -⟩
    · exact idle hi
    · exact hg.all_returned hc

theorem LocalAt.pastLoop_closed {pc : Pc} {f : Frame} {os : List Obs} (h : LocalAt pc f os)
    (hp : pc.pastLoop = true) (hok : OwnOk f.path) : Closed f := by
  cases pc <;> simp [Pc.pastLoop] at hp
  case result => exact h.2.2
  case deferred =>
    rcases h with ⟨-, e, he, -⟩ | ⟨-, hc, -⟩
    · exact absurd he (hok.excludes e)
    · exact hc
  case returned =>
    rcases h with ⟨-, e, he, -⟩ | ⟨-, hc, -⟩
    · exact absurd he (hok.excludes e)
    · exact hc

theorem allDone_closer {g : Goroutine} (h : g.allDone = true) : g.frame.closer.isDone = true := by
  obtain ⟨f, kids⟩ := g
  simp only [Goroutine.allDone, Bool.and_eq_true] at h
  exact h.1.2
theorem offer_of_returned {g : Goroutine} (h : g.obs.returned = true) : offer g = none := by
  cases ho : offer g with
  | none => rfl
  | some m => rw [offer_not_returned ho] at h; cases h

/-- A tree of calls in which every goroutine has ended takes no step. -/
theorem walkStep_of_allDone : ∀ (a : Act) (g : Goroutine), g.allDone = true → walkStep a g = none
  | .run, .mk f kids, h => by
      simp only [Goroutine.allDone, Bool.and_eq_true, Pc.isReturned] at h
      have hpc : f.pc = .returned := by
        cases hp : f.pc <;> simp [hp] at h
        rfl
      simp [walkStep, runStep, hpc]
  | .recv i, .mk f kids, h => by
      simp only [Goroutine.allDone, Bool.and_eq_true] at h
      simp only [walkStep]
      cases hk : kids[i]? with
      | none => rfl
      | some k =>
          have := (allDoneList_iff kids).1 h.2 k (List.getElem?_mem hk)
          simp [offer_of_returned (allDone_returned this)]
  | .dirClosed, .mk f kids, h => by
      simp only [Goroutine.allDone, Bool.and_eq_true, Pc.isReturned] at h
      have hpc : f.pc = .returned := by
        cases hp : f.pc <;> simp [hp] at h
        rfl
      simp [walkStep, hpc]
  | .errClosed, .mk f kids, h => by
      simp only [Goroutine.allDone, Bool.and_eq_true, Pc.isReturned] at h
      have hpc : f.pc = .returned := by
        cases hp : f.pc <;> simp [hp] at h
        rfl
      simp [walkStep, hpc]
  | .closer, .mk f kids, h => by
      simp only [Goroutine.allDone, Bool.and_eq_true] at h
      have hc := h.1.2
      simp only [walkStep, closerStep]
      cases hcl : f.closer <;> rw [hcl] at hc <;> simp [Closer.isDone] at hc
  | .kid i a, .mk f kids, h => by
      simp only [Goroutine.allDone, Bool.and_eq_true] at h
      simp only [walkStep]
      cases hk : kids[i]? with
      | none => rfl
      | some k =>
          have := (allDoneList_iff kids).1 h.2 k (List.getElem?_mem hk)
          simp [walkStep_of_allDone a k this]

/-- When every goroutine has ended, no step of the program is left. -/
theorem sysStep_of_allDone {c : Caller} {s : Sys} (h : s.root.allDone = true) :
    ∀ a, sysStep c a s = none := by
  intro a
  cases a with
  | recv => simp [sysStep, offer_of_returned (allDone_returned h)]
  | walk a => simp [sysStep, walkStep_of_allDone a s.root h]

/-! ## Sample runs -/

theorem exists_complete {path : Dir} {c : Caller} {sched : List SysAct} {s : Sys}
    (hrun : sysRun c sched (start path) = some s) :
    ∃ more s', sysRun c more s = some s' ∧ ∀ a, sysStep c a s' = none :=
  SysInv.complete _ (SysInv.reach hrun) (Nat.le_refl _)

theorem demoDir_ok : fails demoDir = false := by decide

theorem demoEnd_run : sysRun .once demoSched (start demoDir) = some demoEnd :=
  (Option.some_get _).symm

theorem demoEnd_stuck : ∀ a, sysStep .once a demoEnd = none :=
  sysStep_of_allDone (by decide!)

theorem demoEnd2_run : sysRun .always demoSched2 (start demoDir) = some demoEnd2 :=
  (Option.some_get _).symm

theorem emptyEnd_run : sysRun .once emptySched (start emptyDir) = some emptyEnd :=
  (Option.some_get _).symm

theorem emptyEnd_stuck : ∀ a, sysStep .once a emptyEnd = none :=
  sysStep_of_allDone (by decide!)

theorem failDir_fails : fails failDir = true := by decide

theorem failFirstEnd_run : sysRun .once failFirst (start failDir) = some failFirstEnd :=
  (Option.some_get _).symm

theorem failEnd_run : sysRun .always (failFirst ++ failRest) (start failDir) = some failEnd :=
  (Option.some_get _).symm

theorem failEnd_stuck : ∀ a, sysStep .always a failEnd = none :=
  sysStep_of_allDone (by decide!)

theorem failMid_get : failEnd.root.kids[0]? = some failMid := (Option.some_get _).symm

theorem failMid_within : Within failMid failEnd.root :=
  Within.kid (List.getElem?_mem failMid_get) (Within.self _)

theorem failMid_sent : Msg.dir failMid.frame.node ∈ failMid.frame.sent := by decide!

theorem failMid_errs : errsOf failMid.frame.sent = ["permission denied"] := by decide!

theorem ownOk_of_isSome {p : Dir} (h1 : p.lstat.toOption.isSome = true)
    (h2 : p.readErr.isNone = true) : OwnOk p := by
  obtain ⟨l, r, es⟩ := p
  cases l with
  | error e => simp [Dir.lstat, Except.toOption] at h1
  | ok info =>
      cases r with
      | some e => simp [Dir.readErr] at h2
      | none => exact ⟨⟨info, rfl⟩, rfl⟩

theorem failMid_ownOk : OwnOk failMid.frame.path := ownOk_of_isSome (by decide!) (by decide!)

/-- A node whose sub-nodes carry each other's sizes and files is not `Summed`, although each
of its nodes has a `Size` that is the `Lstat` size of some directory of the tree plus the
sizes of its `Files` plus the sizes of its `Dirs`. -/
theorem swappedNode_not_summed : ¬ Summed swappedNode demoDir := by
  intro h
  obtain ⟨info, -, -, -, -, -, ps, hf, hsub⟩ := (summed_iff _ _).1 h
  obtain ⟨q, qs, hx, -, rfl⟩ := List.forall₂_cons_left_iff.1 hf
  have hq := hsub.subset (List.mem_cons_self q qs)
  obtain ⟨ix, hl, -, hname, hfiles, -⟩ := (summed_iff _ _).1 hx
  simp only [demoDir, Dir.entries, subdirs, List.mem_cons, List.mem_singleton,
    List.not_mem_nil, or_false] at hq
  rcases hq with rfl | rfl
  · simp [WalkDir.Files, Dir.entries, filesOf] at hfiles
  · simp only [Dir.lstat, Except.ok.injEq] at hl
    subst hl
    simp [WalkDir.Name] at hname

/-! ## The properties of the specification -/

/-- C1. In a directory tree on which no `Lstat` and no `ReadDir` fails, under every schedule,
a `WalkDir` the caller of `walk` receives on `dirCh` has the `Size` of the `WalkDir` that
`walkSimple` returns for the same path; when no step is left, the caller has received exactly
one such `WalkDir` and nothing else; and every schedule can be run on until no step is
left. -/
theorem walk_size_eq_walkSimple (path : Dir) (hok : fails path = false) (c : Caller)
    (sched : List SysAct) (s : Sys) (hrun : sysRun c sched (start path) = some s) :
    (∀ d ∈ dirsOf s.got, ∃ d0, walkSimple path = .ok d0 ∧ d.Size = d0.Size) ∧
    ((∀ a, sysStep c a s = none) →
      ∃ d d0, s.got = [.dir d] ∧ walkSimple path = .ok d0 ∧ d.Size = d0.Size) ∧
    (∃ more s', sysRun c more s = some s' ∧ ∀ a, sysStep c a s' = none) := by
  obtain ⟨d0, hd0, hs0⟩ := walkSimple_ok path hok
  refine ⟨fun d hd => ⟨d0, hd0, ?_⟩, fun hst => ?_, exists_complete hrun⟩
  · rw [hs0]; exact got_size_eq_total hok hrun d hd
  · obtain ⟨d, hg, hd⟩ := got_of_stuck_ok hok hrun hst
    exact ⟨d, d0, hg, hd0, hd.trans hs0.symm⟩

theorem walk_size_eq_walkSimple_witness :
    fails demoDir = false ∧ sysRun .once demoSched (start demoDir) = some demoEnd ∧
    (∀ a, sysStep .once a demoEnd = none) ∧
    (∀ d ∈ dirsOf demoEnd.got, ∃ d0, walkSimple demoDir = .ok d0 ∧ d.Size = d0.Size) ∧
    ((∀ a, sysStep .once a demoEnd = none) →
      ∃ d d0, demoEnd.got = [.dir d] ∧ walkSimple demoDir = .ok d0 ∧ d.Size = d0.Size) ∧
    (∃ more s', sysRun .once more demoEnd = some s' ∧ ∀ a, sysStep .once a s' = none) :=
  ⟨demoDir_ok, demoEnd_run, demoEnd_stuck,
    walk_size_eq_walkSimple demoDir demoDir_ok .once demoSched demoEnd demoEnd_run⟩

/-- C2. Every `WalkDir` that `walkSimple` returns, and every `WalkDir` that a call of `walk`
hands over, at any depth of the tree of calls and under every schedule, is `Summed` for the
directory of the call: it has the name and the files of that directory, its `Size` is the
`Lstat` size of that directory plus the sizes of its `Files` plus the sizes of its `Dirs`,
added in `int64`, and its `Dirs` are `Summed` in turn, each for a sub-directory of its own.
The `Dirs` of the node of `walkSimple` are, in the order of the listing, what `walkSimple`
returns for the sub-directories; the `Dirs` of the node of a call of `walk` were handed over
by the children of the call, which are the calls for the sub-directories. As an integer, the
`Size` of a `Summed` node is the sum of those integers wrapped into `int64`. -/
theorem walk_nodes_summed (path : Dir) :
    (∀ d, walkSimple path = .ok d → Summed d path ∧
      List.Forall₂ (fun n q => walkSimple q = .ok n) d.Dirs (subdirs path.entries)) ∧
    (∀ (c : Caller) (sched : List SysAct) (s : Sys), sysRun c sched (start path) = some s →
      (∀ d ∈ dirsOf s.got, Summed d path) ∧
      ∀ g, Within g s.root → ∀ d ∈ dirsOf g.frame.sent, Summed d g.frame.path ∧
        g.kids.map (fun k => k.frame.path) = subdirs g.frame.path.entries ∧
        ∀ n ∈ d.Dirs, ∃ k ∈ g.kids, n ∈ dirsOf k.frame.sent ∧ Summed n k.frame.path) ∧
    (∀ (d : WalkDir) (p : Dir), Summed d p ↔
      ∃ info, p.lstat = .ok info ∧ p.readErr = none ∧ d.Name = info.name ∧
        d.Files = filesOf p.entries ∧
        d.Size = info.size + (d.Files.map WalkFile.Size).sum + (d.Dirs.map WalkDir.Size).sum ∧
        ∃ ps, List.Forall₂ Summed d.Dirs ps ∧ ps.Subperm (subdirs p.entries)) ∧
    (∀ (d : WalkDir) (p : Dir), Summed d p → ∃ info, p.lstat = .ok info ∧
      d.Size.val = wrap64 (info.size.val + ((d.Files.map fun f => f.Size.val).sum) +
        ((d.Dirs.map fun c => c.Size.val).sum))) := by
  refine ⟨walkSimple_built path, fun c sched s hrun => ?_, summed_iff,
    fun d p => Summed.size_val⟩
  have h := SysInv.reach hrun
  refine ⟨fun d hd => ?_, fun g hg d hd =>
    ⟨(h.root.within hg).summed d hd, (h.root.within hg).dirs_of_kids hd⟩⟩
  have := h.root.summed d (by rw [← h.got]; exact hd)
  rw [h.path] at this; exact this

theorem walk_nodes_summed_witness :
    sysRun .once demoSched (start demoDir) = some demoEnd ∧
    (dirsOf demoEnd.got).map WalkDir.Size = [.ofInt 12398] ∧
    (∀ d, walkSimple demoDir = .ok d → Summed d demoDir ∧
      List.Forall₂ (fun n q => walkSimple q = .ok n) d.Dirs (subdirs demoDir.entries)) ∧
    (∀ d ∈ dirsOf demoEnd.got, Summed d demoDir) ∧
    ∀ g, Within g demoEnd.root → ∀ d ∈ dirsOf g.frame.sent, Summed d g.frame.path ∧
      g.kids.map (fun k => k.frame.path) = subdirs g.frame.path.entries ∧
      ∀ n ∈ d.Dirs, ∃ k ∈ g.kids, n ∈ dirsOf k.frame.sent ∧ Summed n k.frame.path :=
  ⟨demoEnd_run, by decide!, (walk_nodes_summed demoDir).1,
    (walk_nodes_summed demoDir).2.1 .once demoSched demoEnd demoEnd_run⟩

/-- C3. When the `Lstat` or the `ReadDir` of a directory of the tree fails, `walkSimple`
returns an error, and under every schedule the first value the caller of `walk` receives from
the two channels is an error, not a `WalkDir`; when no step is left, the caller has received
a value; and every schedule can be run on until no step is left. -/
theorem walk_error_first (path : Dir) (hf : fails path = true) :
    (∃ e, walkSimple path = .error e) ∧
    ∀ (c : Caller) (sched : List SysAct) (s : Sys), sysRun c sched (start path) = some s →
      (∀ m, s.got.head? = some m → ∃ e, m = .err e) ∧
      ((∀ a, sysStep c a s = none) → s.got ≠ []) ∧
      (∃ more s', sysRun c more s = some s' ∧ ∀ a, sysStep c a s' = none) := by
  refine ⟨walkSimple_error path hf, fun c sched s hrun => ?_⟩
  have h := SysInv.reach hrun
  refine ⟨fun m hm => ?_, h.got_of_stuck, exists_complete hrun⟩
  exact h.root.head_err (by rw [h.path]; exact hf) m (by rw [← h.got]; exact hm)

theorem walk_error_first_witness :
    fails failDir = true ∧ sysRun .once failFirst (start failDir) = some failFirstEnd ∧
    failFirstEnd.got = [.err "permission denied"] ∧
    (∃ e, walkSimple failDir = .error e) ∧
    (∀ m, failFirstEnd.got.head? = some m → ∃ e, m = .err e) ∧
    ((∀ a, sysStep .once a failFirstEnd = none) → failFirstEnd.got ≠ []) ∧
    (∃ more s', sysRun .once more failFirstEnd = some s' ∧ ∀ a, sysStep .once a s' = none) :=
  ⟨failDir_fails, failFirstEnd_run, by decide!, (walk_error_first failDir failDir_fails).1,
    (walk_error_first failDir failDir_fails).2 .once failFirst failFirstEnd failFirstEnd_run⟩

/-- C4, at `failDir`: the call that walks `mid`, one child of which succeeds and one fails,
hands over the error of the failing child and then a `WalkDir` built from the successful
child, and its caller adds that `WalkDir` to its own. This happens after the one `select` of
a caller like `main` has received the error, the outermost call being then blocked sending
its `WalkDir`; a caller that keeps receiving gets the error and then a `WalkDir`. -/
theorem walk_sends_partial_result :
    (sysRun .once (failFirst ++ failMore) (start failDir) = some failOnceEnd ∧
      failOnceEnd.got = [.err "permission denied"] ∧
      failOnceEnd.root.kids.map (fun k => k.frame.sent) =
        [[.err "permission denied",
          .dir (.mk "mid" (.ofInt 8192) [.mk "a" (.ofInt 4096) [] []] [])]] ∧
      offer failOnceEnd.root =
        some (.dir (.mk "." (.ofInt 12288)
          [.mk "mid" (.ofInt 8192) [.mk "a" (.ofInt 4096) [] []] []] []))) ∧
    (sysRun .always (failFirst ++ failRest) (start failDir) = some failEnd ∧
      failEnd.root.kids.map (fun k => k.frame.sent) =
        [[.err "permission denied",
          .dir (.mk "mid" (.ofInt 8192) [.mk "a" (.ofInt 4096) [] []] [])]] ∧
      failEnd.got =
        [.err "permission denied",
         .dir (.mk "." (.ofInt 12288)
           [.mk "mid" (.ofInt 8192) [.mk "a" (.ofInt 4096) [] []] []] [])]) :=
  ⟨⟨(Option.some_get _).symm, by decide!, by decide!, by decide!⟩,
    ⟨(Option.some_get _).symm, by decide!, by decide!⟩⟩

/-- C5. `Pretty` is the pre-order rendering: a directory at depth `k` is one line of `4*k`
spaces followed by `|- <Name> (<Size>)` and a newline, then one such line per file, in order,
at depth `k+1`, then the renderings of its sub-directories, in order, at depth `k+1`; and for
the tree of `TestWalkDir_PrettyPrint` the output is the ten lines `aaa`, `bbb`, `ccc`, `ddd`,
`fff`, `ggg`, `eee`, `hhh`, `iii`, `jjj` with indents 0, 4, 4, 4, 8, 8, 4, 8, 8, 8. -/
theorem pretty_eq_specRender :
    (∀ d : WalkDir, d.Pretty = specRender 0 d) ∧
    testTree.Pretty =
      "|- aaa (0)\n    |- bbb (0)\n    |- ccc (0)\n    |- ddd (0)\n        |- fff (0)\n        |- ggg (0)\n    |- eee (0)\n        |- hhh (0)\n        |- iii (0)\n        |- jjj (0)\n" := by
  refine ⟨fun d => ?_, testTree_pretty⟩
  have := pretty_eq d 0 ""
  simpa [WalkDir.Pretty] using this

/-- C6. Under every schedule, a call of `walk`, at any depth, that is blocked sending its
`WalkDir` on `dirCh`, or has sent it, has the following behind it: every call it spawned has
ended, its counter is zero and one of its channels is closed; the `WalkDir`s it received,
which are the `Dirs` of its node, are all the `WalkDir`s its children handed over, each child
having handed over at most one; and the errors it forwarded are all the errors its children
handed over. -/
theorem walk_publishes_after_children (path : Dir) (c : Caller) (sched : List SysAct) (s : Sys)
    (hrun : sysRun c sched (start path) = some s) (g : Goroutine) (hg : Within g s.root)
    (d : WalkDir) (hd : offer g = some (.dir d) ∨ Msg.dir d ∈ g.frame.sent) :
    (∀ k ∈ g.kids, k.frame.pc.isReturned = true) ∧ g.frame.subWg = 0 ∧
    (g.frame.subDirClosed = true ∨ g.frame.subErrClosed = true) ∧
    Multiset.ofList d.Dirs = sentDirs (g.kids.map Goroutine.obs) ∧
    (∀ k ∈ g.kids, (dirsOf k.frame.sent).length ≤ 1) ∧
    Multiset.ofList (errsOf g.frame.sent) = sentErrs (g.kids.map Goroutine.obs) := by
  have hinv := (SysInv.reach hrun).root.within hg
  obtain ⟨hnode, hc, hgath⟩ := hinv.published hd
  refine ⟨fun k hk => ?_, hgath.subWg_zero hc, hc, ?_, fun k hk => (hinv.kids k hk).dirs_le_one, ?_⟩
  · exact hgath.all_returned hc k.obs (List.mem_map_of_mem _ hk)
  · rw [hnode]; exact hgath.dirs
  · have := hgath.errs
    rwa [List.append_nil] at this

theorem walk_publishes_after_children_witness :
    sysRun .always (failFirst ++ failRest) (start failDir) = some failEnd ∧
    Within failMid failEnd.root ∧
    (offer failMid = some (.dir failMid.frame.node) ∨
      Msg.dir failMid.frame.node ∈ failMid.frame.sent) ∧
    (∀ k ∈ failMid.kids, k.frame.pc.isReturned = true) ∧ failMid.frame.subWg = 0 ∧
    (failMid.frame.subDirClosed = true ∨ failMid.frame.subErrClosed = true) ∧
    Multiset.ofList failMid.frame.node.Dirs = sentDirs (failMid.kids.map Goroutine.obs) ∧
    (∀ k ∈ failMid.kids, (dirsOf k.frame.sent).length ≤ 1) ∧
    Multiset.ofList (errsOf failMid.frame.sent) = sentErrs (failMid.kids.map Goroutine.obs) :=
  ⟨failEnd_run, failMid_within, Or.inr failMid_sent,
    walk_publishes_after_children failDir .always (failFirst ++ failRest) failEnd failEnd_run
      failMid failMid_within failMid.frame.node (Or.inr failMid_sent)⟩

/-- C7. Under every schedule of a caller that keeps receiving, for every call of `walk`, at
any depth: if its own `Lstat` or `ReadDir` fails with `e`, it spawns nothing, hands over no
`WalkDir` and nothing but `e`, and has handed over exactly `e` once it has ended; if both
succeed, the errors it has handed over are among the errors its children have handed over,
unchanged, and once it has ended they are all of them, every child having ended; and when no
step is left, the call has ended. -/
theorem walk_forwards_errors (path : Dir) (sched : List SysAct) (s : Sys)
    (hrun : sysRun .always sched (start path) = some s) (g : Goroutine)
    (hg : Within g s.root) :
    (∀ e, OwnFailure g.frame.path e →
      g.kids = [] ∧ dirsOf g.frame.sent = [] ∧
      (g.frame.sent = [] ∨ g.frame.sent = [.err e]) ∧
      (g.frame.pc.isReturned = true → g.frame.sent = [.err e])) ∧
    (OwnOk g.frame.path →
      Multiset.ofList (errsOf g.frame.sent) ≤ sentErrs (g.kids.map Goroutine.obs) ∧
      (g.frame.pc.isReturned = true →
        Multiset.ofList (errsOf g.frame.sent) = sentErrs (g.kids.map Goroutine.obs) ∧
        ∀ k ∈ g.kids, k.frame.pc.isReturned = true)) ∧
    ((∀ a, sysStep .always a s = none) → g.frame.pc.isReturned = true) := by
  have hsys := SysInv.reach hrun
  have hinv := hsys.root.within hg
  refine ⟨fun e he => ?_, fun hok => ?_, fun hst => ?_⟩
  · have hl := hinv.local
    have hnl : ∀ {f : Frame}, f.path = g.frame.path → ¬ Listed f :=
      fun hp hli => hli.not_ownFailure e (by rw [hp]; exact he)
    cases hpc : g.frame.pc <;> rw [hpc] at hl
    case lstat =>
      exact ⟨by simpa using hl.1.kids, by rw [hl.2]; rfl, Or.inl hl.2, by simp [Pc.isReturned]⟩
    case readDir =>
      exact ⟨by simpa using hl.1.kids, by rw [hl.2.1]; rfl, Or.inl hl.2.1,
        by simp [Pc.isReturned]⟩
    case ownErr e' =>
      exact ⟨by simpa using hl.1.kids, by rw [hl.2.1]; rfl, Or.inl hl.2.1,
        by simp [Pc.isReturned]⟩
    case range rest => exact absurd (Scanning.listed hl) (hnl rfl)
    case select => exact absurd hl.1.listed (hnl rfl)
    case forward e' => exact absurd hl.1.listed (hnl rfl)
    case result => exact absurd hl.1.listed (hnl rfl)
    case deferred =>
      rcases hl with ⟨hi, e', he', hs⟩ | ⟨hgath, -, -⟩
      · rw [ownFailure_unique he he'] at hs
        exact ⟨by simpa using hi.kids, by rw [hs]; rfl, Or.inr hs, fun _ => hs⟩
      · exact absurd hgath.listed (hnl rfl)
    case returned =>
      rcases hl with ⟨hi, e', he', hs⟩ | ⟨hgath, -, -⟩
      · rw [ownFailure_unique he he'] at hs
        exact ⟨by simpa using hi.kids, by rw [hs]; rfl, Or.inr hs, fun _ => hs⟩
      · exact absurd hgath.listed (hnl rfl)
  · constructor
    · rcases hinv.local.phase with ⟨hs, -⟩ | ⟨pend, hgath, -⟩ | hend
      · rw [hs]; exact Multiset.zero_le _
      · rw [← hgath.errs, ← Multiset.coe_add]
        exact Multiset.le_add_right _ _
      · rcases hend with ⟨-, e, he, -⟩ | ⟨hgath, -, -⟩
        · exact absurd he (hok.excludes e)
        · rw [← hgath.errs, List.append_nil]
    · intro hret
      rcases hinv.ended (by simpa [Goroutine.obs] using hret) with ⟨-, e, he, -⟩ | ⟨hgath, hc, -⟩
      · exact absurd he (hok.excludes e)
      · refine ⟨by rw [← hgath.errs, List.append_nil], fun k hk => ?_⟩
        exact hgath.all_returned hc k.obs (List.mem_map_of_mem _ hk)
  · rcases hsys.stuck hst with h1 | ⟨h2, -⟩
    · have := allDone_returned (allDone_within hg h1)
      simpa [Goroutine.obs] using this
    · cases h2

theorem walk_forwards_errors_witness :
    sysRun .always (failFirst ++ failRest) (start failDir) = some failEnd ∧
    Within failMid failEnd.root ∧ OwnOk failMid.frame.path ∧
    errsOf failMid.frame.sent = ["permission denied"] ∧
    (∀ a, sysStep .always a failEnd = none) ∧
    (∀ e, OwnFailure failMid.frame.path e →
      failMid.kids = [] ∧ dirsOf failMid.frame.sent = [] ∧
      (failMid.frame.sent = [] ∨ failMid.frame.sent = [.err e]) ∧
      (failMid.frame.pc.isReturned = true → failMid.frame.sent = [.err e])) ∧
    (OwnOk failMid.frame.path →
      Multiset.ofList (errsOf failMid.frame.sent) ≤ sentErrs (failMid.kids.map Goroutine.obs) ∧
      (failMid.frame.pc.isReturned = true →
        Multiset.ofList (errsOf failMid.frame.sent) =
          sentErrs (failMid.kids.map Goroutine.obs) ∧
        ∀ k ∈ failMid.kids, k.frame.pc.isReturned = true)) ∧
    ((∀ a, sysStep .always a failEnd = none) → failMid.frame.pc.isReturned = true) :=
  ⟨failEnd_run, failMid_within, failMid_ownOk, failMid_errs, failEnd_stuck,
    walk_forwards_errors failDir (failFirst ++ failRest) failEnd failEnd_run failMid
      failMid_within⟩

/-- C8. In a directory tree on which nothing fails, any two `WalkDir`s that callers of two
runs of `walk` receive, under any two schedules, have the same `Size`; and so have the results
of two calls of `walkSimple`. -/
theorem walk_size_deterministic (path : Dir) (hok : fails path = false)
    (c₁ c₂ : Caller) (sched₁ sched₂ : List SysAct) (s₁ s₂ : Sys)
    (h₁ : sysRun c₁ sched₁ (start path) = some s₁)
    (h₂ : sysRun c₂ sched₂ (start path) = some s₂) :
    (∀ d₁ ∈ dirsOf s₁.got, ∀ d₂ ∈ dirsOf s₂.got, d₁.Size = d₂.Size) ∧
    (∀ d₁ d₂, walkSimple path = .ok d₁ → walkSimple path = .ok d₂ → d₁.Size = d₂.Size) := by
  refine ⟨fun d₁ hd₁ d₂ hd₂ => ?_, fun d₁ d₂ e₁ e₂ => ?_⟩
  · rw [got_size_eq_total hok h₁ d₁ hd₁, got_size_eq_total hok h₂ d₂ hd₂]
  · rw [e₁] at e₂; cases e₂; rfl

theorem walk_size_deterministic_witness :
    fails demoDir = false ∧ sysRun .once demoSched (start demoDir) = some demoEnd ∧
    sysRun .always demoSched2 (start demoDir) = some demoEnd2 ∧
    (dirsOf demoEnd.got).map (fun d => d.Dirs.map WalkDir.Name) = [["x", "y"]] ∧
    (dirsOf demoEnd2.got).map (fun d => d.Dirs.map WalkDir.Name) = [["y", "x"]] ∧
    (∀ d₁ ∈ dirsOf demoEnd.got, ∀ d₂ ∈ dirsOf demoEnd2.got, d₁.Size = d₂.Size) ∧
    (∀ d₁ d₂, walkSimple demoDir = .ok d₁ → walkSimple demoDir = .ok d₂ → d₁.Size = d₂.Size) :=
  ⟨demoDir_ok, demoEnd_run, demoEnd2_run, by decide!, by decide!,
    walk_size_deterministic demoDir demoDir_ok .once .always demoSched demoSched2 demoEnd
      demoEnd2 demoEnd_run demoEnd2_run⟩

/-- C9. For a directory whose `Lstat` and `ReadDir` succeed and whose listing is empty,
`walkSimple` returns the `WalkDir` with the name and the size of the directory and no `Files`
and no `Dirs`; under every schedule the caller of `walk` receives nothing but this `WalkDir`,
no error; when no step is left it has received it; and every schedule can be run on until no
step is left. -/
theorem walk_empty_dir (path : Dir) (info : FileInfo) (hl : path.lstat = .ok info)
    (hr : path.readErr = none) (he : path.entries = []) :
    walkSimple path = .ok (.mk info.name info.size [] []) ∧
    ∀ (c : Caller) (sched : List SysAct) (s : Sys), sysRun c sched (start path) = some s →
      (s.got = [] ∨ s.got = [.dir (.mk info.name info.size [] [])]) ∧
      ((∀ a, sysStep c a s = none) → s.got = [.dir (.mk info.name info.size [] [])]) ∧
      (∃ more s', sysRun c more s = some s' ∧ ∀ a, sysStep c a s' = none) := by
  have hok : fails path = false := by rw [fails_of_listed hl hr, he]; rfl
  constructor
  · obtain ⟨l, r, es⟩ := path
    simp only [Dir.lstat, Dir.readErr, Dir.entries] at hl hr he
    subst hl; subst hr; subst he
    rfl
  · intro c sched s hrun
    have h := SysInv.reach hrun
    have key : s.got ≠ [] → s.got = [.dir (.mk info.name info.size [] [])] := by
      intro hne
      rw [h.got] at hne ⊢
      have hs := h.root.sent_of_ok (by rw [h.path]; exact hok) hne
      rw [hs]
      rcases h.root.local.phase with ⟨h1, -⟩ | ⟨pend, hg, -⟩ | hend
      · exact absurd h1 hne
      · have hi : s.root.frame.info = info := by
          have := hg.listed.1
          rw [h.path, hl] at this
          cases this; rfl
        rw [hg.node_of_empty (by rw [h.path]; exact he), hi]
      · rcases hend.sent_dirs with ⟨e, hown, -⟩ | ⟨-, -, hg, -⟩
        · rw [h.path] at hown
          rw [fails_of_ownFailure hown] at hok; cases hok
        · have hi : s.root.frame.info = info := by
            have := hg.listed.1
            rw [h.path, hl] at this
            cases this; rfl
          rw [hg.node_of_empty (by rw [h.path]; exact he), hi]
    refine ⟨?_, fun hst => key (h.got_of_stuck hst), exists_complete hrun⟩
    by_cases hg : s.got = []
    · exact Or.inl hg
    · exact Or.inr (key hg)

theorem walk_empty_dir_witness :
    emptyDir.lstat = .ok ⟨"empty", .ofInt 4096⟩ ∧ emptyDir.readErr = none ∧
    emptyDir.entries = [] ∧ sysRun .once emptySched (start emptyDir) = some emptyEnd ∧
    (∀ a, sysStep .once a emptyEnd = none) ∧
    walkSimple emptyDir = .ok (.mk "empty" (.ofInt 4096) [] []) ∧
    (emptyEnd.got = [] ∨ emptyEnd.got = [.dir (.mk "empty" (.ofInt 4096) [] [])]) ∧
    ((∀ a, sysStep .once a emptyEnd = none) →
      emptyEnd.got = [.dir (.mk "empty" (.ofInt 4096) [] [])]) ∧
    (∃ more s', sysRun .once more emptyEnd = some s' ∧ ∀ a, sysStep .once a s' = none) :=
  ⟨rfl, rfl, rfl, emptyEnd_run, emptyEnd_stuck,
    (walk_empty_dir emptyDir ⟨"empty", .ofInt 4096⟩ rfl rfl rfl).1,
    (walk_empty_dir emptyDir ⟨"empty", .ofInt 4096⟩ rfl rfl rfl).2 .once emptySched emptyEnd
      emptyEnd_run⟩

/-- C10. For every directory tree and every schedule of a caller that keeps receiving: the
schedule is no longer than `bound path`; from the state it reaches, a state in which no step
is left can be reached; no step is left exactly when every goroutine of the tree, calls and
closers, has ended, and then the caller has received the result of the outermost call, its
own error or, after the errors it forwarded, its `WalkDir`; and for every call, at any depth,
a channel it created is closed only when every call it spawned has ended, and the call is
past its loop only when one of them is closed. -/
theorem walk_terminates (path : Dir) (sched : List SysAct) (s : Sys)
    (hrun : sysRun .always sched (start path) = some s) :
    sched.length ≤ bound path ∧
    (∃ more s', sysRun .always more s = some s' ∧ ∀ a, sysStep .always a s' = none) ∧
    (((∀ a, sysStep .always a s = none) ↔ s.root.allDone = true) ∧
      ((∀ a, sysStep .always a s = none) →
        (∃ e, OwnFailure path e ∧ s.got = [.err e]) ∨
        ∃ errs : List Error, s.got = errs.map Msg.err ++ [.dir s.root.frame.node])) ∧
    ∀ g, Within g s.root →
      ((g.frame.subDirClosed = true ∨ g.frame.subErrClosed = true) →
        ∀ k ∈ g.kids, k.frame.pc.isReturned = true) ∧
      (OwnOk g.frame.path → g.frame.pc.pastLoop = true →
        (g.frame.subDirClosed = true ∨ g.frame.subErrClosed = true)) ∧
      ((∀ a, sysStep .always a s = none) →
        g.frame.pc.isReturned = true ∧ g.frame.closer.isDone = true) := by
  have h := SysInv.reach hrun
  have hdone : (∀ a, sysStep .always a s = none) → s.root.allDone = true := by
    intro hst
    rcases h.stuck hst with h1 | ⟨h2, -⟩
    · exact h1
    · cases h2
  refine ⟨?_, exists_complete hrun, ⟨⟨hdone, sysStep_of_allDone⟩, fun hst => ?_⟩, fun g hg => ?_⟩
  · have h1 := sysRun_work sched hrun
    have h2 := h.sys_work_le
    omega
  · rw [h.got]
    rcases h.root.ended (allDone_returned (hdone hst)) with ⟨-, e, he, hs⟩ | ⟨-, -, hs⟩
    · exact Or.inl ⟨e, by rw [← h.path]; exact he, hs⟩
    · exact Or.inr ⟨_, hs⟩
  · have hinv := h.root.within hg
    refine ⟨fun hc k hk => ?_, fun hok hp => hinv.local.pastLoop_closed hp hok, fun hst => ?_⟩
    · exact hinv.local.closed_returned hc k.obs (List.mem_map_of_mem _ hk)
    · have hgd := allDone_within hg (hdone hst)
      exact ⟨by simpa [Goroutine.obs] using allDone_returned hgd, allDone_closer hgd⟩

theorem walk_terminates_witness :
    sysRun .always (failFirst ++ failRest) (start failDir) = some failEnd ∧
    (∀ a, sysStep .always a failEnd = none) ∧
    (failFirst ++ failRest).length ≤ bound failDir ∧
    (∃ more s', sysRun .always more failEnd = some s' ∧ ∀ a, sysStep .always a s' = none) ∧
    (((∀ a, sysStep .always a failEnd = none) ↔ failEnd.root.allDone = true) ∧
      ((∀ a, sysStep .always a failEnd = none) →
        (∃ e, OwnFailure failDir e ∧ failEnd.got = [.err e]) ∨
        ∃ errs : List Error,
          failEnd.got = errs.map Msg.err ++ [.dir failEnd.root.frame.node])) ∧
    ∀ g, Within g failEnd.root →
      ((g.frame.subDirClosed = true ∨ g.frame.subErrClosed = true) →
        ∀ k ∈ g.kids, k.frame.pc.isReturned = true) ∧
      (OwnOk g.frame.path → g.frame.pc.pastLoop = true →
        (g.frame.subDirClosed = true ∨ g.frame.subErrClosed = true)) ∧
      ((∀ a, sysStep .always a failEnd = none) →
        g.frame.pc.isReturned = true ∧ g.frame.closer.isDone = true) :=
  ⟨failEnd_run, failEnd_stuck,
    walk_terminates failDir (failFirst ++ failRest) failEnd failEnd_run⟩

end FolderSizer
